import Mathlib

/-!
influxdb-proxy: InfluxQL tokenizer, statement classifier and line normalizer.

A shallow embedding of `backend/influxql.go`.

* Go strings and byte slices are lists of bytes (`Str`); a byte is a natural number.
* A Go function that can raise a run-time panic (index or slice out of range) returns an
  `Outcome`: `ok v` for a normal return, `panic` for the run-time panic, `fuel` when a
  bounded loop of the model was cut off (never the case for the entry points, see
  `ScanTokens_ne_fuel`).
* What the file uses but does not define (the `SupportCmds` table, the Unicode paths of
  the standard library, the clock, the precision table) is the record `Env`.
-/

namespace InfluxProxy

/-- Go `string` / `[]byte`: a sequence of bytes, each byte a natural number. -/
abbrev Str := List Nat

/-- The bytes (UTF-8) of a string literal. -/
def str (s : String) : Str :=
  s.toList.flatMap (fun c => (String.utf8EncodeChar c).map UInt8.toNat)

/-- The four error values declared at the top of influxql.go. -/
inductive Err where
  | ErrWrongQuote
  | ErrUnmatchedQuote
  | ErrUnclosed
  | ErrIllegalQL
  deriving DecidableEq, Repr

/-- Result of running a Go function: normal return, run-time panic, or model loop cut off. -/
inductive Outcome (α : Type) where
  | ok (a : α)
  | panic
  | fuel
  deriving DecidableEq, Repr

/-- Sequencing of outcomes: a panic (or cut-off) of the first step is the result. -/
def Outcome.bind {α β : Type} (x : Outcome α) (f : α → Outcome β) : Outcome β :=
  match x with
  | .ok a => f a
  | .panic => .panic
  | .fuel => .fuel

/-- What influxql.go takes from outside the file. -/
structure Env where
  /-- Membership in the package-level map SupportCmds, declared in another file of the
  package. -/
  SupportCmds : Str → Bool
  /-- The call strings.Map(unicode.ToLower, s), the non-ASCII path of strings.ToLower. -/
  mapUnicodeLower : Str → Str
  /-- Lower-casing of runes neither adds nor removes an ASCII byte that is not a letter:
  such a byte stands for itself in UTF-8 and no other rune lower-cases to it. -/
  lower_count : ∀ (s : Str) (c : Nat),
    c < 65 ∨ (90 < c ∧ c < 97) ∨ (122 < c ∧ c < 128) →
    (mapUnicodeLower s).count c = s.count c
  /-- The call strings.TrimFunc(s, unicode.IsSpace), a non-ASCII path of strings.TrimSpace. -/
  trimFuncSpace : Str → Str
  /-- TrimFunc returns a substring of its argument. -/
  trimFunc_sub : ∀ s : Str, trimFuncSpace s <:+: s
  /-- The call strings.TrimRightFunc(s, unicode.IsSpace), a non-ASCII path of strings.TrimSpace. -/
  trimRightFuncSpace : Str → Str
  /-- TrimRightFunc returns a prefix of its argument. -/
  trimRightFunc_sub : ∀ s : Str, trimRightFuncSpace s <+: s
  /-- The function models.GetPrecisionMultiplier of the influxdb client library. -/
  GetPrecisionMultiplier : Str → Int
  /-- The value of time.Now().UnixNano() at the call. -/
  nowUnixNano : Int

/-! ## Standard-library functions used by the file -/

/-- Go bytes.IndexByte: index of the first occurrence of c, none for -1. -/
def IndexByte : Str → Nat → Option Nat
  | [], _ => none
  | b :: s, c => if b = c then some 0 else (IndexByte s c).map (· + 1)

/-- Lower-casing of one ASCII byte: A..Z go to a..z. -/
def lowerByte (c : Nat) : Nat := if 65 ≤ c ∧ c ≤ 90 then c + 32 else c

/-- Go strings.ToLower: bytewise on an all-ASCII string, else the Unicode mapping. -/
def ToLower (E : Env) (s : Str) : Str :=
  if s.all (fun c => decide (c < 128)) then s.map lowerByte else E.mapUnicodeLower s

/-- The table asciiSpace of package strings: tab, LF, VT, FF, CR, space. -/
def asciiSpace (c : Nat) : Bool :=
  c = 9 || c = 10 || c = 11 || c = 12 || c = 13 || c = 32

/-- Second loop of strings.TrimSpace, on the reversed remainder s[start:stop]. -/
def trimSpaceRight (E : Env) : Str → Str
  | [] => []
  | c :: r =>
    if 128 ≤ c then E.trimRightFuncSpace (c :: r).reverse
    else if asciiSpace c then trimSpaceRight E r
    else (c :: r).reverse

/-- First loop of strings.TrimSpace, then the second one. -/
def trimSpaceLeft (E : Env) : Str → Str
  | [] => []
  | c :: s =>
    if 128 ≤ c then E.trimFuncSpace (c :: s)
    else if asciiSpace c then trimSpaceLeft E s
    else trimSpaceRight E (c :: s).reverse

/-- Go strings.TrimSpace. -/
def TrimSpace (E : Env) (s : Str) : Str := trimSpaceLeft E s

/-- Go strings.TrimRight / bytes.TrimRight with an all-ASCII cutset. -/
def TrimRight (s : Str) (cutset : Str) : Str :=
  s.rdropWhile (fun c => decide (c ∈ cutset))

/-- Go strings.Join. -/
def Join : List Str → Str → Str
  | [], _ => []
  | [a], _ => a
  | a :: b :: rest, sep => a ++ sep ++ Join (b :: rest) sep

/-! ## Tokenizer -/

/-- The loop of FindEndWithQuote. The first argument is data[end:]; endIdx is the loop
variable end, unquoted the bytes appended so far. The guard len(data) == end of the source
is never true inside the loop (end < len(data) there), so a backslash that is the last byte
reaches data[end+1], which is out of range. -/
def FindEndWithQuote.loop (endchar : Nat) : Str → Nat → Str → Outcome (Nat × Str × Option Err)
  | [], endIdx, unquoted => .ok (endIdx, unquoted, some Err.ErrUnmatchedQuote)
  | c :: rest, endIdx, unquoted =>
    if c = endchar then .ok (endIdx + 1, unquoted ++ [c], none)
    else if c = 92 then
      match rest with
      | [] => .panic
      | d :: rest2 =>
        if d = endchar then FindEndWithQuote.loop endchar rest2 (endIdx + 2) (unquoted ++ [d])
        else .ok (endIdx, unquoted, some Err.ErrWrongQuote)
    else FindEndWithQuote.loop endchar rest (endIdx + 1) (unquoted ++ [c])

/-- Go FindEndWithQuote(data, start, endchar): returns (end, unquoted, err). -/
def FindEndWithQuote (data : Str) (start : Nat) (endchar : Nat) :
    Outcome (Nat × Str × Option Err) :=
  match data.drop start with
  | [] => .panic
  | q :: rest => FindEndWithQuote.loop endchar rest (start + 1) [q]

/-- The loop that skips leading spaces in ScanToken: the number of leading space bytes. -/
def skipSpaces : Str → Nat
  | [] => 0
  | b :: s => if b = 32 then skipSpaces s + 1 else 0

/-- The loop of the dot case of ScanToken: the number of leading dot bytes. -/
def dotRun : Str → Nat
  | [] => 0
  | b :: s => if b = 46 then dotRun s + 1 else 0

/-- The three bracket cases of ScanToken: advance and error for the closer. -/
def ScanToken.group (data : Str) (start : Nat) (closer : Nat) : Int × Option Err :=
  match IndexByte (data.drop start) closer with
  | none => (-1, some Err.ErrUnclosed)
  | some k => ((k + start + 1 : Nat), none)

/-- Go ScanToken(data, atEOF): returns (advance, token, err); a nil token is none. -/
def ScanToken (data : Str) (atEOF : Bool) : Outcome (Int × Option Str × Option Err) :=
  if atEOF && decide (data.length = 0) then .ok (0, none, none)
  else
    let start := skipSpaces data
    if start = data.length then .ok (0, none, none)
    else
      match data[start]? with
      | none => .panic
      | some c =>
        if c = 34 then
          (FindEndWithQuote data start 34).bind fun r => .ok ((r.1 : Int), some r.2.1, r.2.2)
        else if c = 39 then
          (FindEndWithQuote data start 39).bind fun r => .ok ((r.1 : Int), some r.2.1, r.2.2)
        else
          let ae : Int × Option Err :=
            if c = 40 then ScanToken.group data start 41
            else if c = 91 then ScanToken.group data start 93
            else if c = 123 then ScanToken.group data start 125
            else if c = 46 then ((start + 1 + dotRun (data.drop (start + 1)) : Nat), none)
            else
              match IndexByte (data.drop start) 32 with
              | none => ((data.length : Nat), none)
              | some k => ((k + start : Nat), none)
          match ae.2 with
          | some e => .ok (ae.1, none, some e)
          | none => .ok (ae.1, some ((data.take ae.1.toNat).drop start), none)

/-- The loop for scanner.Scan() of ScanTokens over a bufio.Scanner whose split function is
ScanToken and whose reader holds the whole query: data is the unconsumed input. Scan stops
(returns false) when the input is used up, when the split function returns an error, no
token, or an advance outside the data; a panic of the split function propagates. The
second component is the error of the split function that stopped the scan, if any (what
scanner.Err would report); ScanTokens never reads it. The limit n is a natural number: a
negative limit of the source behaves like 0. -/
def scanLoop (n : Nat) : Nat → Str → List Str → Outcome (List Str × Option Err)
  | 0, _, _ => .fuel
  | k + 1, data, tokens =>
    if data = [] then .ok (tokens, none)
    else
      match ScanToken data false with
      | .panic => .panic
      | .fuel => .fuel
      | .ok (_, _, some e) => .ok (tokens, some e)
      | .ok (_, none, none) => .ok (tokens, none)
      | .ok (adv, some tok, none) =>
        if adv < 0 ∨ (data.length : Int) < adv then .ok (tokens, none)
        else
          let tokens2 := tokens ++ [tok]
          if 0 < n ∧ tokens2.length = n then .ok (tokens2, none)
          else scanLoop n k (data.drop adv.toNat) tokens2

/-- The query as ScanTokens trims it: TrimRight(TrimSpace(q), "; "). -/
def trimQuery (E : Env) (q : Str) : Str := TrimRight (TrimSpace E q) [59, 32]

/-- The scan of ScanTokens with the error the scanner ends with. -/
def scanAll (E : Env) (q : Str) (n : Nat) : Outcome (List Str × Option Err) :=
  scanLoop n ((trimQuery E q).length + 1) (trimQuery E q) []

/-- Go ScanTokens(q, n): the tokens scanned; the scanner error is not looked at. -/
def ScanTokens (E : Env) (q : Str) (n : Nat) : Outcome (List Str) :=
  (scanAll E q n).bind fun r => .ok r.1

/-! ## Statement classifier -/

/-- Go GetHeadStmtFromTokens(tokens, n): the first n tokens (all of them when n is out of
range), joined by single spaces and lower-cased. -/
def GetHeadStmtFromTokens (E : Env) (tokens : List Str) (n : Int) : Str :=
  let n2 : Int := if n ≤ 0 ∨ (tokens.length : Int) < n then (tokens.length : Int) else n
  ToLower E (Join (tokens.take n2.toNat) [32])

/-- The slice expression m[1 : len(m)-1]; it panics when len(m) is below 2. -/
def sliceInner (m : Str) : Outcome Str :=
  if m.length < 2 then .panic else .ok ((m.take (m.length - 1)).drop 1)

/-- The statement "if m[0] is a double or single quote, m = m[1 : len(m)-1]" that
getMeasurement runs on its candidate; m[0] panics on an empty m. -/
def unquote (m : Str) : Outcome Str :=
  match m with
  | [] => .panic
  | c :: _ => if c = 34 ∨ c = 39 then sliceInner m else .ok m

/-- Go getDatabase(tokens). -/
def getDatabase (tokens : List Str) : Outcome Str :=
  match tokens with
  | [] => .panic
  | m :: _ =>
    match m with
    | [] => .panic
    | c :: _ =>
      if c = 34 ∨ c = 39 then sliceInner m
      else
        match IndexByte m 46 with
        | none => .ok m
        | some index => .ok (m.take index)

/-- Go getMeasurement(tokens). -/
def getMeasurement (tokens : List Str) : Outcome Str :=
  if 3 ≤ tokens.length ∧ (tokens[1]? = some [46] ∨ tokens[1]? = some [46, 46]) then
    let cand : Option Str :=
      if 3 < tokens.length ∧ tokens[1]? = some [46] then
        if 5 ≤ tokens.length ∧ tokens[3]? = some [46] then tokens[4]? else tokens[0]?
      else tokens[2]?
    match cand with
    | none => .panic
    | some m => unquote m
  else
    match tokens with
    | [] => .panic
    | m :: _ =>
      match m with
      | [] => .panic
      | c :: _ =>
        if c = 47 then .ok m
        else if c = 34 ∨ c = 39 then sliceInner m
        else
          match IndexByte m 46 with
          | none => .ok m
          | some index => unquote (m.drop (index + 1))

/-- The loops of GetIdentifierFromTokens, over tokens[i:]: at the first token that
lower-cases to a keyword and is not the last one, fn is applied to the tokens after it. -/
def GetIdentifierFromTokens.loop (E : Env) (keywords : List Str)
    (fn : List Str → Outcome Str) : List Str → Outcome (Str × Option Err)
  | [] => .ok ([], some Err.ErrIllegalQL)
  | t :: rest =>
    if keywords.any (fun k => decide (ToLower E t = k)) ∧ rest ≠ [] then
      (fn rest).bind fun m => .ok (m, none)
    else GetIdentifierFromTokens.loop E keywords fn rest

/-- Go GetIdentifierFromTokens(tokens, keywords, fn): returns (m, err). -/
def GetIdentifierFromTokens (E : Env) (tokens : List Str) (keywords : List Str)
    (fn : List Str → Outcome Str) : Outcome (Str × Option Err) :=
  GetIdentifierFromTokens.loop E keywords fn tokens

/-- Go GetDatabaseFromTokens. -/
def GetDatabaseFromTokens (E : Env) (tokens : List Str) : Outcome (Str × Option Err) :=
  GetIdentifierFromTokens E tokens [str "on", str "database"] getDatabase

/-- Go GetMeasurementFromTokens. -/
def GetMeasurementFromTokens (E : Env) (tokens : List Str) : Outcome (Str × Option Err) :=
  GetIdentifierFromTokens E tokens [str "from", str "measurement"] getMeasurement

/-- Go GetDatabaseFromInfluxQL(q). -/
def GetDatabaseFromInfluxQL (E : Env) (q : Str) : Outcome (Str × Option Err) :=
  (ScanTokens E q 0).bind fun tokens => GetDatabaseFromTokens E tokens

/-- Go GetMeasurementFromInfluxQL(q). -/
def GetMeasurementFromInfluxQL (E : Env) (q : Str) : Outcome (Str × Option Err) :=
  (ScanTokens E q 0).bind fun tokens => GetMeasurementFromTokens E tokens

/-- The loop of the select branch of CheckQuery over tokens[1:]: the pair (check, from). -/
def CheckQuery.selectLoop (E : Env) : List Str → Bool × Bool
  | [] => (false, false)
  | t :: rest =>
    if ToLower E t = str "into" then (false, false)
    else if ToLower E t = str "from" then (true, true)
    else CheckQuery.selectLoop E rest

/-- The loop of the show branch of CheckQuery over tokens[1:]: whether it returned. -/
def CheckQuery.showLoop (E : Env) : List Str → Bool
  | [] => false
  | t :: rest => if ToLower E t = str "from" then true else CheckQuery.showLoop E rest

/-- The part of CheckQuery after the select and show branches: the two table lookups. -/
def CheckQuery.generic (E : Env) (tokens : List Str) : Bool × Bool :=
  let stmt2 := GetHeadStmtFromTokens E tokens 2
  if E.SupportCmds stmt2 then
    (true, decide (stmt2 = str "delete from" ∨ stmt2 = str "drop measurement"))
  else
    let stmt3 := GetHeadStmtFromTokens E tokens 3
    if E.SupportCmds stmt3 then (true, decide (stmt3 = str "drop series from"))
    else (false, false)

/-- The body of CheckQuery once the query is tokenized: (check, from); tokens[0] panics on
an empty token list. -/
def CheckQuery.classify (E : Env) (tokens : List Str) : Outcome (Bool × Bool) :=
  match tokens with
  | [] => .panic
  | t0 :: rest =>
    let stmt := ToLower E t0
    if stmt = str "select" then .ok (CheckQuery.selectLoop E rest)
    else if stmt = str "show" ∧ CheckQuery.showLoop E rest = true then .ok (true, true)
    else .ok (CheckQuery.generic E tokens)

/-- Go CheckQuery(q): returns (tokens, check, from). -/
def CheckQuery (E : Env) (q : Str) : Outcome (List Str × Bool × Bool) :=
  (ScanTokens E q 0).bind fun tokens =>
    (CheckQuery.classify E tokens).bind fun r => .ok (tokens, r.1, r.2)

/-- Go CheckDatabaseFromTokens(tokens): returns (check, show, db). -/
def CheckDatabaseFromTokens (E : Env) (tokens : List Str) : Outcome (Bool × Bool × Str) :=
  let stmt := GetHeadStmtFromTokens E tokens 2
  let isShow : Bool := decide (stmt = str "show databases")
  let alter : Bool := decide (stmt = str "create database" ∨ stmt = str "drop database")
  if alter = true ∧ 3 ≤ tokens.length then
    (getDatabase (tokens.drop 2)).bind fun db => .ok (isShow || alter, isShow, db)
  else .ok (isShow || alter, isShow, [])

/-- Go CheckSelectOrShowFromTokens(tokens); tokens[0] panics on an empty list. -/
def CheckSelectOrShowFromTokens (E : Env) (tokens : List Str) : Outcome Bool :=
  match tokens with
  | [] => .panic
  | t0 :: _ => .ok (decide (ToLower E t0 = str "select" ∨ ToLower E t0 = str "show"))

/-- Go CheckDeleteOrDropMeasurementFromTokens(tokens). -/
def CheckDeleteOrDropMeasurementFromTokens (E : Env) (tokens : List Str) : Bool :=
  if 3 ≤ tokens.length then
    let stmt := GetHeadStmtFromTokens E tokens 2
    decide (stmt = str "delete from" ∨ stmt = str "drop measurement" ∨ stmt = str "drop series")
  else false

/-! ## Line protocol normalizer -/

/-- An ASCII decimal digit, the negation of the loop test of ScanTime. -/
def isDigit (c : Nat) : Bool := decide (48 ≤ c) && decide (c ≤ 57)

/-- Go ScanTime(buf): the index the backward loop stops at (-1 when every byte is a digit)
and whether a timestamp was found. -/
def ScanTime (buf : Str) : Int × Bool :=
  let i : Int := (buf.length : Int) - 1 - ((buf.reverse.takeWhile isDigit).length : Int)
  (i, decide (0 < i) && decide (i < (buf.length : Int) - 1) &&
      (buf[i.toNat]? == some 32 || buf[i.toNat]? == some 9 || buf[i.toNat]? == some 0))

/-- Wrap-around of Go int64 arithmetic. -/
def wrap64 (x : Int) : Int := (x + 2 ^ 63) % 2 ^ 64 - 2 ^ 63

/-- Go BytesToInt64(buf); the byte subtraction wraps at 256, the int64 operations at 2^64. -/
def BytesToInt64 (buf : Str) : Int :=
  buf.foldl (fun res b => wrap64 (wrap64 (res * 10) + (((b + 256 - 48) % 256 : Nat) : Int))) 0

/-- Go Int64ToBytes(n), that is strconv.FormatInt(n, 10). -/
def Int64ToBytes (n : Int) : Str :=
  if n < 0 then 45 :: (Nat.toDigits 10 n.natAbs).map Char.toNat
  else (Nat.toDigits 10 n.natAbs).map Char.toNat

/-- Go LineToNano(line, precision). -/
def LineToNano (E : Env) (line : Str) (precision : Str) : Str :=
  let line := TrimRight line [32, 9, 13, 10]
  let pf := ScanTime line
  if pf.2 = true then
    if precision = str "ns" ∨ precision = str "n" then line
    else if precision = str "u" then line ++ str "000"
    else if precision = str "ms" then line ++ str "000000"
    else if precision = str "s" then line ++ str "000000000"
    else
      let mul := E.GetPrecisionMultiplier precision
      let nano := wrap64 (BytesToInt64 (line.drop (pf.1 + 1).toNat) * mul)
      let bytenano := Int64ToBytes nano
      Join [line.take pf.1.toNat, bytenano] [32]
  else line ++ (32 :: Int64ToBytes E.nowUnixNano)

/-- An environment for evaluating the code on concrete input: the given command table;
the Unicode paths are stand-ins (bytewise lower-casing, no trimming), which ASCII input
does not reach. -/
def asciiEnv (cmds : List Str) : Env :=
  { SupportCmds := fun s => decide (s ∈ cmds)
    mapUnicodeLower := List.map lowerByte
    lower_count := fun s c hc => by
      induction s with
      | nil => rfl
      | cons x xs ih =>
        have hx : (lowerByte x = c) ↔ (x = c) := by
          unfold lowerByte
          split
          · constructor <;> intro h <;> omega
          · rfl
        simp only [List.map_cons, List.count_cons, ih, beq_iff_eq, hx]
    trimFuncSpace := id
    trimFunc_sub := fun s => List.infix_refl s
    trimRightFuncSpace := id
    trimRightFunc_sub := fun s => List.prefix_refl s
    GetPrecisionMultiplier := fun _ => 1
    nowUnixNano := 0 }

/-! ## Auxiliary definitions for the proofs -/

/-- The result of a bracket case of ScanToken, written over data[start:]. -/
def groupAt (start : Nat) (rest : Str) (closer : Nat) : Outcome (Int × Option Str × Option Err) :=
  match IndexByte rest closer with
  | none => .ok (-1, none, some Err.ErrUnclosed)
  | some k => .ok (((k + start + 1 : Nat) : Int), some (rest.take (k + 1)), none)

/-- The result of ScanToken written over data[start:] = c :: tl, where start is the index of
the first byte that is not a space. -/
def tokenAt (start : Nat) (c : Nat) (tl : Str) : Outcome (Int × Option Str × Option Err) :=
  if c = 34 then
    (FindEndWithQuote.loop 34 tl (start + 1) [c]).bind fun r => .ok ((r.1 : Int), some r.2.1, r.2.2)
  else if c = 39 then
    (FindEndWithQuote.loop 39 tl (start + 1) [c]).bind fun r => .ok ((r.1 : Int), some r.2.1, r.2.2)
  else if c = 40 then groupAt start (c :: tl) 41
  else if c = 91 then groupAt start (c :: tl) 93
  else if c = 123 then groupAt start (c :: tl) 125
  else if c = 46 then
    .ok (((start + 1 + dotRun tl : Nat) : Int), some (c :: tl.take (dotRun tl)), none)
  else
    match IndexByte (c :: tl) 32 with
    | none => .ok (((start + (tl.length + 1) : Nat) : Int), some (c :: tl), none)
    | some k => .ok (((k + start : Nat) : Int), some ((c :: tl).take k), none)

/-- The scan loop with the fuel ScanTokens gives it: one more than the bytes of input. -/
def scanFrom (n : Nat) (data : Str) (acc : List Str) : Outcome (List Str × Option Err) :=
  scanLoop n (data.length + 1) data acc

/-- The non-empty pieces of a string split on the space byte. -/
def fields (s : Str) : List Str := (s.splitOn 32).filter (fun w => decide (w ≠ []))

/-- The input of ScanToken after its leading spaces. -/
def dropSpaces (data : Str) : Str := data.drop (skipSpaces data)

/-- A quote body for the quote byte c: c does not occur unescaped, and every backslash is
immediately followed by c. -/
def escBody (c : Nat) : Str → Bool
  | [] => true
  | x :: rest =>
    if x = c then false
    else if x = 92 then
      match rest with
      | [] => false
      | d :: rest2 => decide (d = c) && escBody c rest2
    else escBody c rest

/-- A quote body with each escape backslash removed and the escaped byte kept. -/
def unescape : Str → Str
  | [] => []
  | x :: rest =>
    if x = 92 then
      match rest with
      | [] => []
      | d :: rest2 => d :: unescape rest2
    else x :: unescape rest

/-- A byte that opens a quoted or bracketed token. -/
def isOpener (c : Nat) : Prop := c = 34 ∨ c = 39 ∨ c = 40 ∨ c = 91 ∨ c = 123

/-- The shape of a token ScanToken produces: not empty, with a space inside only when it
starts with a quote or an opening bracket, and of two bytes at least when it starts with a
quote. -/
def TokShape (t : Str) : Prop :=
  t ≠ [] ∧ (32 ∈ t → ∃ c tl, t = c :: tl ∧ isOpener c) ∧
  (∀ c tl, t = c :: tl → c = 34 ∨ c = 39 → tl ≠ [])

/-- A token with its enclosing quotes stripped: without its first and last byte when it
starts with a double or single quote, unchanged otherwise. -/
def stripQuotes (t : Str) : Str :=
  match t with
  | [] => []
  | c :: tl => if c = 34 ∨ c = 39 then tl.dropLast else c :: tl

/-- The measurement of a first token in the words of the specification: the token itself
when it begins with a slash; the token without its first and last byte when it begins with a
quote; otherwise the part after the first dot with enclosing quotes stripped when there is a
dot, and the token unchanged when there is none. -/
def measurementOfToken (t : Str) : Str :=
  if t.head? = some 47 then t
  else if t.head? = some 34 ∨ t.head? = some 39 then t.tail.dropLast
  else
    match IndexByte t 46 with
    | none => t
    | some i => stripQuotes (t.drop (i + 1))

/-- A token on which the quote-stripping statement of the extractors stays in range: not
empty, and of two bytes at least when it starts with a quote. -/
def WellFormed (t : Str) : Prop :=
  t ≠ [] ∧ (t.head? = some 34 ∨ t.head? = some 39 → 2 ≤ t.length)

instance (t : Str) : Decidable (WellFormed t) := by
  unfold WellFormed; exact inferInstance

/-- A first token on which getMeasurement stays in range: well-formed, and with a
well-formed part after its first dot when it begins with neither a slash nor a quote. -/
def WellFormedFirst (t : Str) : Prop :=
  WellFormed t ∧
  (t.head? ≠ some 47 → t.head? ≠ some 34 → t.head? ≠ some 39 →
    ∀ i, IndexByte t 46 = some i → WellFormed (t.drop (i + 1)))

/-- A valid trailing timestamp in the words of the specification: the line ends in a
non-empty run of ASCII digits, preceded by a space, tab or NUL byte that is not the first
byte of the line. -/
def HasTimestamp (buf : Str) : Prop :=
  ∃ pre sep digits, buf = pre ++ sep :: digits ∧ pre ≠ [] ∧ (sep = 32 ∨ sep = 9 ∨ sep = 0) ∧
    digits ≠ [] ∧ ∀ d ∈ digits, 48 ≤ d ∧ d ≤ 57

/-- The number a string of ASCII digits denotes in base 10. -/
def digitsValue (d : Str) : Nat := d.foldl (fun acc b => acc * 10 + (b - 48)) 0

/-- An environment with a fixed clock and the precision table of the influxdb client
library (a minute is 60 and an hour 3600 times 10^9 nanoseconds), for evaluating LineToNano
on concrete input. -/
def clockEnv : Env :=
  { asciiEnv [] with
    GetPrecisionMultiplier := fun p =>
      if p = str "u" then 1000
      else if p = str "ms" then 1000000
      else if p = str "s" then 1000000000
      else if p = str "m" then 60000000000
      else if p = str "h" then 3600000000000
      else 1
    nowUnixNano := 1700000000000000000 }

/-- The database of a token in the words of the specification: the token without its first
and last byte when it begins with a quote, else the part before its first dot when it has
one, else the token unchanged. -/
def databaseOfToken (t : Str) : Str :=
  if t.head? = some 34 ∨ t.head? = some 39 then t.tail.dropLast
  else
    match IndexByte t 46 with
    | some i => t.take i
    | none => t

/-- The first two tokens, joined by a space, lower-case to the given phrase. -/
def TwoWordHead (E : Env) (tokens : List Str) (phrase : Str) : Prop :=
  ∃ t0 t1 rest, tokens = t0 :: t1 :: rest ∧ ToLower E (t0 ++ 32 :: t1) = phrase

/-- Modelled from the spec: the write side of a backend transport, the HttpBackend that
http_test.go creates with NewHttpBackend; its source file is not among the sources, only
its test is. The state is the write buffer and, to account for what was sent, the payloads
flushed to the backend so far, oldest first. -/
structure HttpBackend where
  /-- The bytes written and not yet flushed. -/
  buffer : Str
  /-- The payloads delivered to the backend by the flushes so far. -/
  flushed : List Str

/-- Modelled from the spec: the absent method Write of HttpBackend, write(points) of the
specification. It appends the bytes to the buffer and triggers an immediate flush if the
buffer size is at least FlushSize. A flush on a healthy backend sends the buffer as one
payload and clears it before the next write is accepted; a flush that fails keeps the
buffered bytes for a later retry and the write returns a transport error. The result is the
new state and whether an error is returned. -/
def HttpBackend.Write (FlushSize : Nat) (healthy : Bool) (hb : HttpBackend) (points : Str) :
    HttpBackend × Bool :=
  let buf := hb.buffer ++ points
  if FlushSize ≤ buf.length then
    if healthy then ({ buffer := [], flushed := hb.flushed ++ [buf] }, false)
    else ({ buffer := buf, flushed := hb.flushed }, true)
  else ({ buffer := buf, flushed := hb.flushed }, false)

/-- Modelled from the spec: a sequence of Write calls by a single writer on a healthy
backend, each accepted after the one before has returned. -/
def HttpBackend.writeAll (FlushSize : Nat) (hb : HttpBackend) : List Str → HttpBackend
  | [] => hb
  | points :: more =>
    HttpBackend.writeAll FlushSize (HttpBackend.Write FlushSize true hb points).1 more

/-- The payload that TestHttpBackendWrite of http_test.go writes. -/
def testPayload : Str :=
  str "cpu,host=server01,region=uswest value=1 1434055562000000000\ncpu value=3,value2=4 1434055562000010000"

/-! ## Basic facts -/

theorem bind_ok {α β : Type} (a : α) (f : α → Outcome β) : (Outcome.ok a).bind f = f a := rfl

theorem bind_panic {α β : Type} (f : α → Outcome β) :
    (Outcome.panic : Outcome α).bind f = Outcome.panic := rfl

theorem bind_fuel {α β : Type} (f : α → Outcome β) :
    (Outcome.fuel : Outcome α).bind f = Outcome.fuel := rfl

/-- The select loop passes over tokens that lower-case to neither keyword. -/
theorem selectLoop_skip (E : Env) (pre rest : List Str)
    (hpre : ∀ t ∈ pre, ToLower E t ≠ str "from" ∧ ToLower E t ≠ str "into") :
    CheckQuery.selectLoop E (pre ++ rest) = CheckQuery.selectLoop E rest := by
  induction pre with
  | nil => rfl
  | cons t ts ih =>
    have ht := hpre t (List.mem_cons_self t ts)
    have hts : ∀ u ∈ ts, ToLower E u ≠ str "from" ∧ ToLower E u ≠ str "into" :=
      fun u hu => hpre u (List.mem_cons_of_mem t hu)
    show CheckQuery.selectLoop E (t :: (ts ++ rest)) = CheckQuery.selectLoop E rest
    rw [CheckQuery.selectLoop, if_neg ht.2, if_neg ht.1]
    exact ih hts

/-! ## The tokenizer in normal form -/

theorem skipSpaces_le (data : Str) : skipSpaces data ≤ data.length := by
  induction data with
  | nil => simp [skipSpaces]
  | cons b s ih =>
    unfold skipSpaces
    split
    · simp only [List.length_cons]; omega
    · omega

/-- The byte at which the space-skipping loop of ScanToken stops is not a space. -/
theorem skipSpaces_stop (data : Str) (c : Nat) (tl : Str)
    (h : data.drop (skipSpaces data) = c :: tl) : c ≠ 32 := by
  induction data with
  | nil => simp [skipSpaces] at h
  | cons b s ih =>
    unfold skipSpaces at h
    split at h
    · exact ih (by simpa using h)
    · rename_i hb
      simp only [List.drop_zero, List.cons.injEq] at h
      rw [← h.1]; exact hb

/-- ScanToken on data whose first non-space byte is c, followed by tl. -/
theorem ScanToken_eq_tokenAt (data : Str) (atEOF : Bool) (c : Nat) (tl : Str)
    (h : data.drop (skipSpaces data) = c :: tl) :
    ScanToken data atEOF = tokenAt (skipSpaces data) c tl := by
  have hle := skipSpaces_le data
  have hlen : data.length = skipSpaces data + (tl.length + 1) := by
    have := congrArg List.length h
    simp only [List.length_drop, List.length_cons] at this
    omega
  have hget : data[skipSpaces data]? = some c := by
    rw [← List.head?_drop, h]; rfl
  have hdrop1 : data.drop (skipSpaces data + 1) = tl := by
    rw [← List.drop_drop, h]; rfl
  have htake : ∀ k : Nat, (data.take (skipSpaces data + k)).drop (skipSpaces data)
      = (c :: tl).take k := by
    intro k
    rw [List.drop_take, h]; congr 1; omega
  have hne0 : ¬ data.length = 0 := by omega
  have hne : ¬ skipSpaces data = data.length := by omega
  unfold ScanToken tokenAt
  simp only [hne0, decide_False, Bool.and_false, Bool.false_eq_true, if_false, hne, hget]
  by_cases h34 : c = 34
  · simp only [if_pos h34, FindEndWithQuote, h]
  by_cases h39 : c = 39
  · simp only [if_neg h34, if_pos h39, FindEndWithQuote, h]
  have hgroup : ∀ closer : Nat,
      (match (ScanToken.group data (skipSpaces data) closer).2 with
        | some e => Outcome.ok ((ScanToken.group data (skipSpaces data) closer).1, none, some e)
        | none => Outcome.ok ((ScanToken.group data (skipSpaces data) closer).1,
            some ((data.take (ScanToken.group data (skipSpaces data) closer).1.toNat).drop
              (skipSpaces data)), none))
      = groupAt (skipSpaces data) (c :: tl) closer := by
    intro closer
    unfold ScanToken.group groupAt
    rw [h]
    cases IndexByte (c :: tl) closer with
    | none => rfl
    | some k =>
      simp only [Int.toNat_ofNat]
      rw [show k + skipSpaces data + 1 = skipSpaces data + (k + 1) by omega, htake]
  simp only [if_neg h34, if_neg h39]
  by_cases h40 : c = 40
  · simp only [if_pos h40]; exact hgroup 41
  by_cases h91 : c = 91
  · simp only [if_neg h40, if_pos h91]; exact hgroup 93
  by_cases h123 : c = 123
  · simp only [if_neg h40, if_neg h91, if_pos h123]; exact hgroup 125
  simp only [if_neg h40, if_neg h91, if_neg h123]
  by_cases h46 : c = 46
  · simp only [if_pos h46, hdrop1, Int.toNat_ofNat]
    rw [show skipSpaces data + 1 + dotRun tl = skipSpaces data + (dotRun tl + 1) by omega, htake,
      List.take_succ_cons]
  simp only [if_neg h46, h]
  cases hi : IndexByte (c :: tl) 32 with
  | none =>
    simp only [Int.toNat_ofNat]
    rw [List.take_length, h, hlen]
  | some k =>
    simp only [Int.toNat_ofNat]
    rw [show k + skipSpaces data = skipSpaces data + k by omega, htake]

/-- ScanToken returns no token (and no error) exactly on input of spaces only. -/
theorem ScanToken_of_drop_nil (data : Str) (atEOF : Bool)
    (h : data.drop (skipSpaces data) = []) : ScanToken data atEOF = .ok (0, none, none) := by
  have hle := skipSpaces_le data
  have hlen : skipSpaces data = data.length := by
    have := congrArg List.length h
    simp only [List.length_drop, List.length_nil] at this
    omega
  unfold ScanToken
  simp [hlen]

/-! ## Shape of the tokens -/

theorem IndexByte_none (s : Str) (c : Nat) (h : IndexByte s c = none) : c ∉ s := by
  induction s with
  | nil => simp
  | cons b t ih =>
    unfold IndexByte at h
    split at h
    · simp at h
    · rename_i hb
      simp only [Option.map_eq_none'] at h
      simp only [List.mem_cons, not_or]
      exact ⟨fun hc => hb hc.symm, ih h⟩

theorem IndexByte_some (s : Str) (c k : Nat) (h : IndexByte s c = some k) :
    k < s.length ∧ c ∉ s.take k ∧ s.drop k = c :: s.drop (k + 1) := by
  induction s generalizing k with
  | nil => simp [IndexByte] at h
  | cons b t ih =>
    unfold IndexByte at h
    split at h
    · rename_i hb
      simp only [Option.some.injEq] at h
      subst h; subst hb
      simp
    · rename_i hb
      simp only [Option.map_eq_some'] at h
      obtain ⟨j, hj, rfl⟩ := h
      obtain ⟨h1, h2, h3⟩ := ih j hj
      refine ⟨by simp only [List.length_cons]; omega, ?_, ?_⟩
      · simp only [List.take_succ_cons, List.mem_cons, not_or]
        exact ⟨fun hc => hb hc.symm, h2⟩
      · simpa using h3

theorem quoteLoop_ok_aux (endchar : Nat) (n : Nat) :
    ∀ (rest : Str) (i : Nat) (u : Str) (e : Nat) (u2 : Str), rest.length ≤ n →
      FindEndWithQuote.loop endchar rest i u = .ok (e, u2, none) →
      i + 1 ≤ e ∧ e ≤ i + rest.length ∧ ∃ w, w ≠ [] ∧ u2 = u ++ w := by
  induction n with
  | zero =>
    intro rest i u e u2 hn h
    have : rest = [] := List.length_eq_zero.mp (Nat.le_zero.mp hn)
    subst this
    simp [FindEndWithQuote.loop] at h
  | succ n ih =>
    intro rest i u e u2 hn h
    match rest, hn, h with
    | [], _, h => simp [FindEndWithQuote.loop] at h
    | c :: tl, hn, h =>
      unfold FindEndWithQuote.loop at h
      simp only [List.length_cons] at hn
      split at h
      · simp only [Outcome.ok.injEq, Prod.mk.injEq, and_true] at h
        obtain ⟨h1, h2⟩ := h
        subst h1; subst h2
        exact ⟨le_refl _, by simp only [List.length_cons]; omega, [c], by simp, rfl⟩
      · split at h
        · match tl, hn, h with
          | [], _, h => simp at h
          | d :: tl2, hn, h =>
            simp only at h
            simp only [List.length_cons] at hn
            split at h
            · obtain ⟨h1, h2, w, _, hw⟩ := ih tl2 (i + 2) (u ++ [d]) e u2 (by omega) h
              refine ⟨by omega, by simp only [List.length_cons]; omega, d :: w, by simp, ?_⟩
              rw [hw, List.append_assoc]; rfl
            · simp at h
        · obtain ⟨h1, h2, w, _, hw⟩ := ih tl (i + 1) (u ++ [c]) e u2 (by omega) h
          refine ⟨by omega, by simp only [List.length_cons]; omega, c :: w, by simp, ?_⟩
          rw [hw, List.append_assoc]; rfl

/-- A successful run of the quote loop: the end index lies past the start and inside the
data, and the token extends the bytes collected so far. -/
theorem quoteLoop_ok (endchar : Nat) (rest : Str) (i : Nat) (u : Str) (e : Nat) (u2 : Str)
    (h : FindEndWithQuote.loop endchar rest i u = .ok (e, u2, none)) :
    i + 1 ≤ e ∧ e ≤ i + rest.length ∧ ∃ w, w ≠ [] ∧ u2 = u ++ w :=
  quoteLoop_ok_aux endchar rest.length rest i u e u2 (le_refl _) h

theorem dotRun_le (s : Str) : dotRun s ≤ s.length := by
  induction s with
  | nil => simp [dotRun]
  | cons b t ih =>
    unfold dotRun
    split
    · simp only [List.length_cons]; omega
    · omega

theorem dotRun_take (s : Str) : ∀ x ∈ s.take (dotRun s), x = 46 := by
  induction s with
  | nil => simp [dotRun]
  | cons b t ih =>
    unfold dotRun
    split
    · rename_i hb
      intro x hx
      simp only [List.take_succ_cons, List.mem_cons] at hx
      rcases hx with hx | hx
      · rw [hx, hb]
      · exact ih x hx
    · simp

theorem groupAt_ok (start : Nat) (c : Nat) (tl : Str) (closer : Nat) (adv : Int) (tok : Str)
    (hc : c = 40 ∨ c = 91 ∨ c = 123)
    (h : groupAt start (c :: tl) closer = .ok (adv, some tok, none)) :
    TokShape tok ∧ (start : Int) + 1 ≤ adv ∧ adv ≤ (start : Int) + (tl.length + 1) := by
  unfold groupAt at h
  cases hi : IndexByte (c :: tl) closer with
  | none => rw [hi] at h; simp at h
  | some k =>
    rw [hi] at h
    simp only [Outcome.ok.injEq, Prod.mk.injEq, Option.some.injEq, and_true] at h
    obtain ⟨h1, h2⟩ := h
    have hk := (IndexByte_some _ _ _ hi).1
    simp only [List.length_cons] at hk
    subst h1; subst h2
    refine ⟨⟨by simp, fun _ => ⟨c, tl.take k, by simp, by unfold isOpener; omega⟩, ?_⟩, ?_, ?_⟩
    · intro c2 tl2 heq hq
      simp only [List.take_succ_cons, List.cons.injEq] at heq
      omega
    · push_cast; omega
    · push_cast; omega

/-- A token of ScanToken has the token shape, and the advance lies past the start index and
inside the data. -/
theorem tokenAt_ok (start : Nat) (c : Nat) (tl : Str) (adv : Int) (tok : Str) (hc : c ≠ 32)
    (h : tokenAt start c tl = .ok (adv, some tok, none)) :
    TokShape tok ∧ (start : Int) + 1 ≤ adv ∧ adv ≤ (start : Int) + (tl.length + 1) := by
  unfold tokenAt at h
  have hquote : ∀ q : Nat, c = q → (q = 34 ∨ q = 39) →
      (FindEndWithQuote.loop q tl (start + 1) [c]).bind
        (fun r => Outcome.ok ((r.1 : Int), some r.2.1, r.2.2)) = .ok (adv, some tok, none) →
      TokShape tok ∧ (start : Int) + 1 ≤ adv ∧ adv ≤ (start : Int) + (tl.length + 1) := by
    intro q hq hq2 hr
    cases hl : FindEndWithQuote.loop q tl (start + 1) [c] with
    | panic => rw [hl] at hr; simp [Outcome.bind] at hr
    | fuel => rw [hl] at hr; simp [Outcome.bind] at hr
    | ok r =>
      obtain ⟨e, u2, err⟩ := r
      rw [hl] at hr
      simp only [Outcome.bind, Outcome.ok.injEq, Prod.mk.injEq, Option.some.injEq] at hr
      obtain ⟨h1, h2, h3⟩ := hr
      subst h1; subst h2; subst h3
      obtain ⟨g1, g2, w, hwne, hw⟩ := quoteLoop_ok q tl (start + 1) [c] e u2 hl
      refine ⟨⟨by rw [hw]; simp, fun _ => ⟨c, w, by rw [hw]; rfl, by unfold isOpener; omega⟩,
        ?_⟩, by omega, by omega⟩
      intro c2 tl2 heq _
      rw [hw] at heq
      simp only [List.singleton_append, List.cons.injEq] at heq
      rw [← heq.2]; exact hwne
  by_cases h34 : c = 34
  · rw [if_pos h34] at h; exact hquote 34 h34 (Or.inl rfl) h
  rw [if_neg h34] at h
  by_cases h39 : c = 39
  · rw [if_pos h39] at h; exact hquote 39 h39 (Or.inr rfl) h
  rw [if_neg h39] at h
  by_cases h40 : c = 40
  · rw [if_pos h40] at h
    exact groupAt_ok start c tl 41 adv tok (Or.inl h40) h
  rw [if_neg h40] at h
  by_cases h91 : c = 91
  · rw [if_pos h91] at h
    exact groupAt_ok start c tl 93 adv tok (Or.inr (Or.inl h91)) h
  rw [if_neg h91] at h
  by_cases h123 : c = 123
  · rw [if_pos h123] at h
    exact groupAt_ok start c tl 125 adv tok (Or.inr (Or.inr h123)) h
  rw [if_neg h123] at h
  by_cases h46 : c = 46
  · rw [if_pos h46] at h
    simp only [Outcome.ok.injEq, Prod.mk.injEq, Option.some.injEq, and_true] at h
    obtain ⟨h1, h2⟩ := h
    have hd := dotRun_le tl
    subst h1; subst h2
    refine ⟨⟨by simp, fun hm => ?_, ?_⟩, by push_cast; omega, by push_cast; omega⟩
    · exfalso
      simp only [List.mem_cons] at hm
      rcases hm with hm | hm
      · omega
      · have := dotRun_take tl 32 hm; omega
    · intro c2 tl2 heq hq
      simp only [List.cons.injEq] at heq
      omega
  rw [if_neg h46] at h
  cases hi : IndexByte (c :: tl) 32 with
  | none =>
    rw [hi] at h
    simp only [Outcome.ok.injEq, Prod.mk.injEq, Option.some.injEq, and_true] at h
    obtain ⟨h1, h2⟩ := h
    subst h1; subst h2
    refine ⟨⟨by simp, fun hm => absurd hm (IndexByte_none _ _ hi), ?_⟩, by push_cast; omega,
      by push_cast; omega⟩
    intro c2 tl2 heq hq
    simp only [List.cons.injEq] at heq
    omega
  | some k =>
    rw [hi] at h
    simp only [Outcome.ok.injEq, Prod.mk.injEq, Option.some.injEq, and_true] at h
    obtain ⟨h1, h2⟩ := h
    obtain ⟨g1, g2, g3⟩ := IndexByte_some _ _ _ hi
    simp only [List.length_cons] at g1
    have hk : k ≠ 0 := by
      intro hk0
      subst hk0
      simp only [List.drop_zero, zero_add, List.drop_succ_cons, List.cons.injEq] at g3
      exact hc g3.1
    subst h1; subst h2
    obtain ⟨j, rfl⟩ := Nat.exists_eq_succ_of_ne_zero hk
    refine ⟨⟨by simp, fun hm => absurd hm g2, ?_⟩, by push_cast; omega, by push_cast; omega⟩
    intro c2 tl2 heq hq
    simp only [List.take_succ_cons, List.cons.injEq] at heq
    omega

/-- Every token ScanToken returns has the token shape, and ScanToken then advances by at
least one byte and at most to the end of the data. -/
theorem ScanToken_ok (data : Str) (atEOF : Bool) (adv : Int) (tok : Str)
    (h : ScanToken data atEOF = .ok (adv, some tok, none)) :
    TokShape tok ∧ 1 ≤ adv ∧ adv ≤ (data.length : Int) := by
  cases hd : data.drop (skipSpaces data) with
  | nil => rw [ScanToken_of_drop_nil data atEOF hd] at h; simp at h
  | cons c tl =>
    rw [ScanToken_eq_tokenAt data atEOF c tl hd] at h
    obtain ⟨h1, h2, h3⟩ := tokenAt_ok _ c tl adv tok (skipSpaces_stop data c tl hd) h
    have hlen : data.length = skipSpaces data + (tl.length + 1) := by
      have := congrArg List.length hd
      have hle := skipSpaces_le data
      simp only [List.length_drop, List.length_cons] at this
      omega
    refine ⟨h1, by omega, ?_⟩
    rw [hlen]; push_cast; omega

/-! ## The scan loop -/

theorem quoteLoop_ne_fuel (endchar : Nat) (n : Nat) :
    ∀ (rest : Str) (i : Nat) (u : Str), rest.length ≤ n →
      FindEndWithQuote.loop endchar rest i u ≠ .fuel := by
  induction n with
  | zero =>
    intro rest i u hn
    have : rest = [] := List.length_eq_zero.mp (Nat.le_zero.mp hn)
    subst this
    simp [FindEndWithQuote.loop]
  | succ n ih =>
    intro rest i u hn
    match rest, hn with
    | [], _ => simp [FindEndWithQuote.loop]
    | c :: tl, hn =>
      unfold FindEndWithQuote.loop
      simp only [List.length_cons] at hn
      split
      · simp
      · split
        · match tl, hn with
          | [], _ => simp
          | d :: tl2, hn =>
            simp only [List.length_cons] at hn
            simp only
            split
            · exact ih tl2 _ _ (by omega)
            · simp
        · exact ih tl _ _ (by omega)

theorem tokenAt_ne_fuel (start c : Nat) (tl : Str) : tokenAt start c tl ≠ .fuel := by
  have hq : ∀ q : Nat, (FindEndWithQuote.loop q tl (start + 1) [c]).bind
      (fun r => Outcome.ok ((r.1 : Int), some r.2.1, r.2.2)) ≠ .fuel := by
    intro q
    have := quoteLoop_ne_fuel q tl.length tl (start + 1) [c] (le_refl _)
    cases hl : FindEndWithQuote.loop q tl (start + 1) [c] with
    | ok r => simp [Outcome.bind]
    | panic => simp [Outcome.bind]
    | fuel => exact absurd hl this
  have hg : ∀ closer : Nat, groupAt start (c :: tl) closer ≠ .fuel := by
    intro closer
    unfold groupAt
    cases IndexByte (c :: tl) closer <;> simp
  unfold tokenAt
  split
  · exact hq 34
  split
  · exact hq 39
  split
  · exact hg 41
  split
  · exact hg 93
  split
  · exact hg 125
  split
  · simp
  · cases IndexByte (c :: tl) 32 <;> simp

/-- The split function never runs out of model fuel: it has no bounded loop of its own. -/
theorem ScanToken_ne_fuel (data : Str) (atEOF : Bool) : ScanToken data atEOF ≠ .fuel := by
  cases hd : data.drop (skipSpaces data) with
  | nil => rw [ScanToken_of_drop_nil data atEOF hd]; simp
  | cons c tl => rw [ScanToken_eq_tokenAt data atEOF c tl hd]; exact tokenAt_ne_fuel _ c tl

/-- With more fuel than bytes of input the scan loop is never cut off. -/
theorem scanLoop_ne_fuel (n : Nat) (k : Nat) :
    ∀ (data : Str) (acc : List Str), data.length < k → scanLoop n k data acc ≠ .fuel := by
  induction k with
  | zero => intro data acc h; omega
  | succ k ih =>
    intro data acc hlen
    unfold scanLoop
    split
    · simp
    · rename_i hne
      split
      · simp
      · rename_i hf; exact absurd hf (ScanToken_ne_fuel data false)
      · simp
      · simp
      · rename_i adv tok hst
        obtain ⟨_, h1, h2⟩ := ScanToken_ok data false adv tok hst
        split
        · simp
        · dsimp only
          split
          · simp
          · apply ih
            simp only [List.length_drop]
            omega

/-- Every token the scan loop adds has the token shape. -/
theorem scanLoop_shape (n : Nat) (k : Nat) :
    ∀ (data : Str) (acc res : List Str) (e : Option Err), (∀ t ∈ acc, TokShape t) →
      scanLoop n k data acc = .ok (res, e) → ∀ t ∈ res, TokShape t := by
  induction k with
  | zero => intro data acc res e _ h; simp [scanLoop] at h
  | succ k ih =>
    intro data acc res e hacc h
    unfold scanLoop at h
    split at h
    · simp only [Outcome.ok.injEq, Prod.mk.injEq] at h
      rw [← h.1]; exact hacc
    · split at h
      · simp at h
      · simp at h
      · simp only [Outcome.ok.injEq, Prod.mk.injEq] at h
        rw [← h.1]; exact hacc
      · simp only [Outcome.ok.injEq, Prod.mk.injEq] at h
        rw [← h.1]; exact hacc
      · rename_i adv tok hst
        obtain ⟨hshape, _, _⟩ := ScanToken_ok data false adv tok hst
        have hacc2 : ∀ t ∈ acc ++ [tok], TokShape t := by
          intro t ht
          simp only [List.mem_append, List.mem_singleton] at ht
          rcases ht with ht | ht
          · exact hacc t ht
          · rw [ht]; exact hshape
        split at h
        · simp only [Outcome.ok.injEq, Prod.mk.injEq] at h
          rw [← h.1]; exact hacc
        · dsimp only at h
          split at h
          · simp only [Outcome.ok.injEq, Prod.mk.injEq] at h
            rw [← h.1]; exact hacc2
          · exact ih _ _ res e hacc2 h

/-- ScanTokens is total: the fuel of the model loop always suffices. -/
theorem ScanTokens_ne_fuel (E : Env) (q : Str) (n : Nat) : ScanTokens E q n ≠ .fuel := by
  unfold ScanTokens scanAll
  have := scanLoop_ne_fuel n ((trimQuery E q).length + 1) (trimQuery E q) [] (Nat.lt_succ_self _)
  cases hl : scanLoop n ((trimQuery E q).length + 1) (trimQuery E q) [] with
  | ok r => simp [Outcome.bind]
  | panic => simp [Outcome.bind]
  | fuel => exact absurd hl this

/-- Every token of ScanTokens is non-empty and holds a space only when it starts with a
quote or an opening bracket. -/
theorem ScanTokens_shape (E : Env) (q : Str) (n : Nat) (tokens : List Str)
    (h : ScanTokens E q n = .ok tokens) : ∀ t ∈ tokens, TokShape t := by
  unfold ScanTokens scanAll at h
  cases hl : scanLoop n ((trimQuery E q).length + 1) (trimQuery E q) [] with
  | panic => rw [hl] at h; simp [Outcome.bind] at h
  | fuel => rw [hl] at h; simp [Outcome.bind] at h
  | ok r =>
    obtain ⟨res, e⟩ := r
    rw [hl] at h
    simp only [Outcome.bind, Outcome.ok.injEq] at h
    subst h
    exact scanLoop_shape n _ _ [] res e (by simp) hl

/-- The result of the scan loop does not depend on the fuel, once it exceeds the input. -/
theorem scanLoop_fuel_irrel (n : Nat) (k1 : Nat) :
    ∀ (k2 : Nat) (data : Str) (acc : List Str), data.length < k1 → data.length < k2 →
      scanLoop n k1 data acc = scanLoop n k2 data acc := by
  induction k1 with
  | zero => intro k2 data acc h; omega
  | succ k1 ih =>
    intro k2 data acc h1 h2
    cases k2 with
    | zero => omega
    | succ k2 =>
      by_cases hd : data = []
      · simp only [scanLoop, if_pos hd]
      · cases hst : ScanToken data false with
        | panic => simp only [scanLoop, if_neg hd, hst]
        | fuel => simp only [scanLoop, if_neg hd, hst]
        | ok r =>
          obtain ⟨adv, tok, err⟩ := r
          cases err with
          | some e => simp only [scanLoop, if_neg hd, hst]
          | none =>
            cases tok with
            | none => simp only [scanLoop, if_neg hd, hst]
            | some t =>
              obtain ⟨_, g1, g2⟩ := ScanToken_ok data false adv t hst
              simp only [scanLoop, if_neg hd, hst]
              have hlen : (data.drop adv.toNat).length < k1 ∧ (data.drop adv.toNat).length < k2 := by
                simp only [List.length_drop]; omega
              rw [ih k2 _ _ hlen.1 hlen.2]

theorem scanFrom_nil (n : Nat) (acc : List Str) : scanFrom n [] acc = .ok (acc, none) := by
  simp [scanFrom, scanLoop]

/-- One step of the scan: a token is appended and the scan goes on after the advance. -/
theorem scanFrom_token (data : Str) (acc : List Str) (adv : Int) (tok : Str)
    (hd : data ≠ []) (h : ScanToken data false = .ok (adv, some tok, none)) :
    scanFrom 0 data acc = scanFrom 0 (data.drop adv.toNat) (acc ++ [tok]) := by
  obtain ⟨_, g1, g2⟩ := ScanToken_ok data false adv tok h
  have hcond : ¬ (adv < 0 ∨ (data.length : Int) < adv) := by omega
  unfold scanFrom
  rw [scanLoop]
  simp only [if_neg hd, h, if_neg hcond, Nat.lt_irrefl, false_and, if_false]
  apply scanLoop_fuel_irrel
  · simp only [List.length_drop]; omega
  · omega

/-- The scan stops at an error of the split function, keeping the tokens so far. -/
theorem scanFrom_error (n : Nat) (data : Str) (acc : List Str) (adv : Int) (tok : Option Str)
    (e : Err) (hd : data ≠ []) (h : ScanToken data false = .ok (adv, tok, some e)) :
    scanFrom n data acc = .ok (acc, some e) := by
  unfold scanFrom
  simp only [scanLoop, if_neg hd, h]

/-- The scan stops when only spaces are left. -/
theorem scanFrom_spaces (n : Nat) (data : Str) (acc : List Str) (h : dropSpaces data = []) :
    scanFrom n data acc = .ok (acc, none) := by
  by_cases hd : data = []
  · subst hd; exact scanFrom_nil n acc
  · unfold scanFrom
    simp only [scanLoop, if_neg hd, ScanToken_of_drop_nil data false h]

theorem scanAll_eq_scanFrom (E : Env) (q : Str) (n : Nat) :
    scanAll E q n = scanFrom n (trimQuery E q) [] := rfl

theorem dropSpaces_space (tl : Str) : dropSpaces (32 :: tl) = dropSpaces tl := by
  simp [dropSpaces, skipSpaces]

theorem dropSpaces_cons (c : Nat) (tl : Str) (hc : c ≠ 32) : dropSpaces (c :: tl) = c :: tl := by
  simp [dropSpaces, skipSpaces, hc]

theorem dropSpaces_length_le (data : Str) : (dropSpaces data).length ≤ data.length := by
  simp [dropSpaces]

theorem IndexByte_of_not_mem (s : Str) (c : Nat) (h : c ∉ s) : IndexByte s c = none := by
  induction s with
  | nil => rfl
  | cons b t ih =>
    simp only [List.mem_cons, not_or] at h
    unfold IndexByte
    rw [if_neg (fun (hb : b = c) => h.1 hb.symm), ih h.2]; rfl

theorem IndexByte_append (w rest : Str) (c : Nat) (h : c ∉ w) :
    IndexByte (w ++ c :: rest) c = some w.length := by
  induction w with
  | nil => simp [IndexByte]
  | cons b t ih =>
    simp only [List.mem_cons, not_or] at h
    show IndexByte (b :: (t ++ c :: rest)) c = some (t.length + 1)
    unfold IndexByte
    rw [if_neg (fun (hb : b = c) => h.1 hb.symm), ih h.2]; rfl

/-- A byte that starts a token running to the next space: not a space, quote, opening
bracket or dot. -/
theorem tokenAt_word (start c : Nat) (w rest : Str)
    (hc : c ≠ 32 ∧ c ≠ 34 ∧ c ≠ 39 ∧ c ≠ 40 ∧ c ≠ 91 ∧ c ≠ 123 ∧ c ≠ 46)
    (hw : 32 ∉ w) (hrest : rest = [] ∨ ∃ r, rest = 32 :: r) :
    tokenAt start c (w ++ rest)
      = .ok (((start + (w.length + 1) : Nat) : Int), some (c :: w), none) := by
  obtain ⟨h32, h34, h39, h40, h91, h123, h46⟩ := hc
  unfold tokenAt
  rw [if_neg h34, if_neg h39, if_neg h40, if_neg h91, if_neg h123, if_neg h46]
  rcases hrest with hr | ⟨r, hr⟩
  · subst hr
    have : IndexByte (c :: (w ++ [])) 32 = none := by
      apply IndexByte_of_not_mem
      simp only [List.append_nil, List.mem_cons, not_or]
      exact ⟨fun h => h32 h.symm, hw⟩
    rw [this]
    simp
  · subst hr
    have : IndexByte (c :: (w ++ 32 :: r)) 32 = some (w.length + 1) := by
      have := IndexByte_append (c :: w) r 32
        (by simp only [List.mem_cons, not_or]; exact ⟨fun h => h32 h.symm, hw⟩)
      simpa using this
    rw [this]
    simp only [List.take_succ_cons, Outcome.ok.injEq, Prod.mk.injEq, Option.some.injEq,
      List.cons.injEq, true_and, and_true]
    refine ⟨by push_cast; omega, ?_⟩
    rw [List.take_left]

/-- The quote loop on a body without the quote byte and without a backslash, closed by the
quote byte. -/
theorem quoteLoop_plain (q : Nat) (body rest : Str) (i : Nat) (u : Str)
    (hq : q ∉ body) (hb : 92 ∉ body) :
    FindEndWithQuote.loop q (body ++ q :: rest) i u
      = .ok (i + body.length + 1, u ++ body ++ [q], none) := by
  induction body generalizing i u with
  | nil =>
    show FindEndWithQuote.loop q (q :: rest) i u = _
    unfold FindEndWithQuote.loop
    simp
  | cons c tl ih =>
    simp only [List.mem_cons, not_or] at hq hb
    have hcq : c ≠ q := fun h => hq.1 h.symm
    have hc92 : c ≠ 92 := fun h => hb.1 h.symm
    show FindEndWithQuote.loop q (c :: (tl ++ q :: rest)) i u = _
    unfold FindEndWithQuote.loop
    rw [if_neg hcq, if_neg hc92, ih (i + 1) (u ++ [c]) hq.2 hb.2]
    simp only [List.length_cons, List.append_assoc, List.singleton_append, Outcome.ok.injEq,
      Prod.mk.injEq, and_true]
    omega

/-- Scan step for a token that runs to the next space or to the end of the input. -/
theorem scanFrom_word (data : Str) (acc : List Str) (c : Nat) (w rest : Str)
    (hdrop : dropSpaces data = c :: (w ++ rest))
    (hc : c ≠ 32 ∧ c ≠ 34 ∧ c ≠ 39 ∧ c ≠ 40 ∧ c ≠ 91 ∧ c ≠ 123 ∧ c ≠ 46)
    (hw : 32 ∉ w) (hrest : rest = [] ∨ ∃ r, rest = 32 :: r) :
    scanFrom 0 data acc = scanFrom 0 rest (acc ++ [c :: w]) := by
  have hd : data ≠ [] := by
    intro h; subst h; simp [dropSpaces] at hdrop
  have hst : ScanToken data false
      = .ok (((skipSpaces data + (w.length + 1) : Nat) : Int), some (c :: w), none) := by
    rw [ScanToken_eq_tokenAt data false c (w ++ rest) hdrop, tokenAt_word _ c w rest hc hw hrest]
  rw [scanFrom_token data acc _ _ hd hst, Int.toNat_ofNat, ← List.drop_drop]
  unfold dropSpaces at hdrop
  rw [hdrop, List.drop_succ_cons, List.drop_left]

/-- Scan step for a quoted token whose body holds neither the quote byte nor a backslash. -/
theorem scanFrom_quoted (data : Str) (acc : List Str) (q : Nat) (body rest : Str)
    (hq : q = 34 ∨ q = 39) (hdrop : dropSpaces data = q :: (body ++ q :: rest))
    (hbody : q ∉ body) (hb : 92 ∉ body) :
    scanFrom 0 data acc = scanFrom 0 rest (acc ++ [q :: (body ++ [q])]) := by
  have hd : data ≠ [] := by
    intro h; subst h; simp [dropSpaces] at hdrop
  have hst : ScanToken data false
      = .ok (((skipSpaces data + 1 + body.length + 1 : Nat) : Int), some (q :: (body ++ [q])),
          none) := by
    rw [ScanToken_eq_tokenAt data false q _ hdrop]
    unfold tokenAt
    rcases hq with h | h
    · subst h
      rw [if_pos rfl, quoteLoop_plain 34 body rest _ _ hbody hb]
      simp [Outcome.bind]
    · subst h
      rw [if_neg (by decide), if_pos rfl, quoteLoop_plain 39 body rest _ _ hbody hb]
      simp [Outcome.bind]
  rw [scanFrom_token data acc _ _ hd hst, Int.toNat_ofNat,
    show skipSpaces data + 1 + body.length + 1 = skipSpaces data + (body.length + 1 + 1) by omega,
    ← List.drop_drop]
  unfold dropSpaces at hdrop
  rw [hdrop, List.drop_succ_cons,
    show body ++ q :: rest = (body ++ [q]) ++ rest by simp,
    show body.length + 1 = (body ++ [q]).length by simp, List.drop_left]

/-- Scan step for a token of dots. -/
theorem scanFrom_dots (data : Str) (acc : List Str) (rest : Str)
    (hdrop : dropSpaces data = 46 :: rest) :
    scanFrom 0 data acc
      = scanFrom 0 (rest.drop (dotRun rest)) (acc ++ [46 :: rest.take (dotRun rest)]) := by
  have hd : data ≠ [] := by
    intro h; subst h; simp [dropSpaces] at hdrop
  have hst : ScanToken data false
      = .ok (((skipSpaces data + 1 + dotRun rest : Nat) : Int),
          some (46 :: rest.take (dotRun rest)), none) := by
    rw [ScanToken_eq_tokenAt data false 46 _ hdrop]
    unfold tokenAt
    simp
  rw [scanFrom_token data acc _ _ hd hst, Int.toNat_ofNat,
    show skipSpaces data + 1 + dotRun rest = skipSpaces data + (dotRun rest + 1) by omega,
    ← List.drop_drop]
  unfold dropSpaces at hdrop
  rw [hdrop, List.drop_succ_cons]

/-! ## Splitting on spaces -/

theorem fields_nil : fields [] = [] := by decide

theorem fields_space (s : Str) : fields (32 :: s) = fields s := by
  unfold fields List.splitOn
  rw [List.splitOnP_cons]
  simp

theorem fields_word (w r : Str) (hne : w ≠ []) (hw : 32 ∉ w) :
    fields (w ++ 32 :: r) = w :: fields r := by
  unfold fields List.splitOn
  rw [List.splitOnP_first _ w (by
    intro x hx
    simp only [beq_iff_eq]
    intro h; subst h; exact hw hx) 32 (by simp) r]
  simp [hne]

theorem fields_single (w : Str) (hne : w ≠ []) (hw : 32 ∉ w) : fields w = [w] := by
  unfold fields List.splitOn
  rw [List.splitOnP_eq_single _ w (by
    intro x hx
    simp only [beq_iff_eq]
    intro h; subst h; exact hw hx)]
  simp [hne]

theorem fields_dropSpaces (data : Str) : fields (dropSpaces data) = fields data := by
  induction data with
  | nil => rfl
  | cons b t ih =>
    by_cases hb : b = 32
    · subst hb; rw [dropSpaces_space, fields_space, ih]
    · rw [dropSpaces_cons b t hb]

theorem dropSpaces_subset (data : Str) : ∀ x ∈ dropSpaces data, x ∈ data := by
  intro x hx
  exact List.mem_of_mem_drop hx

/-- Every string is a run without spaces followed by nothing or by a space. -/
theorem split_at_space (tl : Str) :
    ∃ w rest, tl = w ++ rest ∧ 32 ∉ w ∧ (rest = [] ∨ ∃ r, rest = 32 :: r) := by
  induction tl with
  | nil => exact ⟨[], [], rfl, by simp, Or.inl rfl⟩
  | cons b t ih =>
    by_cases hb : b = 32
    · exact ⟨[], b :: t, rfl, by simp, Or.inr ⟨t, by rw [hb]⟩⟩
    · obtain ⟨w, rest, h1, h2, h3⟩ := ih
      refine ⟨b :: w, rest, by rw [h1]; rfl, ?_, h3⟩
      simp only [List.mem_cons, not_or]
      exact ⟨fun h => hb h.symm, h2⟩

/-- On input without quote, bracket and dot bytes the scan yields the non-empty pieces
between spaces. -/
theorem scanFrom_plain (m : Nat) :
    ∀ (data : Str) (acc : List Str), data.length ≤ m →
      (∀ x ∈ data, x ≠ 34 ∧ x ≠ 39 ∧ x ≠ 40 ∧ x ≠ 91 ∧ x ≠ 123 ∧ x ≠ 46) →
      scanFrom 0 data acc = .ok (acc ++ fields data, none) := by
  induction m with
  | zero =>
    intro data acc hlen _
    have : data = [] := List.length_eq_zero.mp (Nat.le_zero.mp hlen)
    subst this
    rw [scanFrom_nil, fields_nil, List.append_nil]
  | succ m ih =>
    intro data acc hlen hns
    cases hds : dropSpaces data with
    | nil =>
      rw [scanFrom_spaces 0 data acc hds, ← fields_dropSpaces, hds, fields_nil, List.append_nil]
    | cons c tl =>
      have hc32 : c ≠ 32 := skipSpaces_stop data c tl hds
      have hsub : ∀ x ∈ c :: tl, x ∈ data := by
        intro x hx; rw [← hds] at hx; exact dropSpaces_subset data x hx
      have hcs := hns c (hsub c (List.mem_cons_self c tl))
      obtain ⟨w, rest, h1, h2, h3⟩ := split_at_space tl
      have hlen2 : (c :: tl).length ≤ data.length := by
        rw [← hds]; exact dropSpaces_length_le data
      have hrlen : rest.length ≤ m := by
        rw [h1] at hlen2
        simp only [List.length_cons, List.length_append] at hlen2
        omega
      have hrns : ∀ x ∈ rest, x ≠ 34 ∧ x ≠ 39 ∧ x ≠ 40 ∧ x ≠ 91 ∧ x ≠ 123 ∧ x ≠ 46 := by
        intro x hx
        apply hns x (hsub x _)
        rw [h1]
        exact List.mem_cons_of_mem c (List.mem_append_right w hx)
      rw [scanFrom_word data acc c w rest (by rw [hds, h1])
        ⟨hc32, hcs.1, hcs.2.1, hcs.2.2.1, hcs.2.2.2.1, hcs.2.2.2.2.1, hcs.2.2.2.2.2⟩ h2 h3,
        ih rest _ hrlen hrns, ← fields_dropSpaces data, hds, h1]
      have hcw : 32 ∉ c :: w := by
        simp only [List.mem_cons, not_or]
        exact ⟨fun h => hc32 h.symm, h2⟩
      rcases h3 with h3 | ⟨r, h3⟩
      · subst h3
        rw [List.append_nil, fields_single (c :: w) (by simp) hcw, fields_nil]
        simp
      · subst h3
        rw [← List.cons_append, fields_word (c :: w) r (by simp) hcw, fields_space]
        simp

/-! ## Trimming -/

theorem trimSpaceRight_sub (E : Env) (r : Str) : trimSpaceRight E r <+: r.reverse := by
  induction r with
  | nil => exact List.prefix_refl _
  | cons c r ih =>
    unfold trimSpaceRight
    split
    · exact E.trimRightFunc_sub _
    · split
      · rw [List.reverse_cons]
        exact ih.trans (List.prefix_append _ _)
      · exact List.prefix_refl _

theorem trimSpaceLeft_sub (E : Env) (s : Str) : trimSpaceLeft E s <:+: s := by
  induction s with
  | nil => exact List.infix_refl _
  | cons c s ih =>
    unfold trimSpaceLeft
    split
    · exact E.trimFunc_sub _
    · split
      · exact ih.trans (List.suffix_cons c s).isInfix
      · have := trimSpaceRight_sub E (c :: s).reverse
        rw [List.reverse_reverse] at this
        exact this.isInfix

/-- The trimmed query is a piece of the query. -/
theorem trimQuery_sub (E : Env) (q : Str) : trimQuery E q <:+: q := by
  unfold trimQuery TrimRight TrimSpace
  exact (List.rdropWhile_prefix _ _).isInfix.trans (trimSpaceLeft_sub E q)

/-! ## Quoted tokens -/

theorem unescape_escape (d : Nat) (rest : Str) :
    unescape (92 :: d :: rest) = d :: unescape rest := by
  conv_lhs => unfold unescape
  rfl

theorem unescape_plain (x : Nat) (rest : Str) (hx : x ≠ 92) :
    unescape (x :: rest) = x :: unescape rest := by
  conv_lhs => unfold unescape
  rw [if_neg hx]

theorem quoteLoop_body_aux (c : Nat) (n : Nat) :
    ∀ (body tail : Str) (i : Nat) (u : Str), body.length ≤ n → escBody c body = true →
      FindEndWithQuote.loop c (body ++ tail) i u
        = FindEndWithQuote.loop c tail (i + body.length) (u ++ unescape body) := by
  induction n with
  | zero =>
    intro body tail i u hn _
    have : body = [] := List.length_eq_zero.mp (Nat.le_zero.mp hn)
    subst this
    simp [unescape]
  | succ n ih =>
    intro body tail i u hn hb
    match body, hn, hb with
    | [], _, _ => simp [unescape]
    | x :: rest, hn, hb =>
      simp only [List.length_cons] at hn
      unfold escBody at hb
      by_cases hxc : x = c
      · rw [if_pos hxc] at hb; exact absurd hb (by decide)
      · rw [if_neg hxc] at hb
        by_cases hx : x = 92
        · rw [if_pos hx] at hb
          match rest, hn, hb with
          | [], _, hb => simp at hb
          | d :: rest2, hn, hb =>
            simp only [List.length_cons] at hn
            simp only [Bool.and_eq_true, decide_eq_true_eq] at hb
            subst hx
            show FindEndWithQuote.loop c (92 :: d :: (rest2 ++ tail)) i u = _
            conv_lhs => unfold FindEndWithQuote.loop
            rw [if_neg hxc, if_pos rfl]
            simp only [if_pos hb.1]
            rw [ih rest2 tail _ _ (by omega) hb.2, unescape_escape]
            simp only [List.length_cons, List.append_assoc, List.singleton_append]
            rw [show i + 2 + rest2.length = i + (rest2.length + 1 + 1) by omega]
        · rw [if_neg hx] at hb
          show FindEndWithQuote.loop c (x :: (rest ++ tail)) i u = _
          conv_lhs => unfold FindEndWithQuote.loop
          rw [if_neg hxc, if_neg hx, ih rest tail _ _ (by omega) hb, unescape_plain x rest hx]
          simp only [List.length_cons, List.append_assoc, List.singleton_append]
          rw [show i + 1 + rest.length = i + (rest.length + 1) by omega]

/-- The quote loop runs through a body of plain bytes and escaped quotes, collecting the
body without the escape backslashes. -/
theorem quoteLoop_body (c : Nat) (body tail : Str) (i : Nat) (u : Str)
    (hb : escBody c body = true) :
    FindEndWithQuote.loop c (body ++ tail) i u
      = FindEndWithQuote.loop c tail (i + body.length) (u ++ unescape body) :=
  quoteLoop_body_aux c body.length body tail i u (le_refl _) hb

/-- End of input before an unescaped closing quote: ErrUnmatchedQuote. -/
theorem FindEndWithQuote_unmatched (pre body : Str) (c : Nat) (hb : escBody c body = true) :
    FindEndWithQuote (pre ++ c :: body) pre.length c
      = .ok (pre.length + 1 + body.length, c :: unescape body, some Err.ErrUnmatchedQuote) := by
  have := quoteLoop_body c body [] (pre.length + 1) [c] hb
  rw [List.append_nil] at this
  simp only [FindEndWithQuote, List.drop_left, this]
  simp [FindEndWithQuote.loop]

/-- A backslash followed by a byte other than the quote byte, before any unescaped closing
quote: ErrWrongQuote. -/
theorem FindEndWithQuote_wrong (pre body rest : Str) (c d : Nat) (hc : c ≠ 92) (hd : d ≠ c)
    (hb : escBody c body = true) :
    FindEndWithQuote (pre ++ c :: (body ++ 92 :: d :: rest)) pre.length c
      = .ok (pre.length + 1 + body.length, c :: unescape body, some Err.ErrWrongQuote) := by
  simp only [FindEndWithQuote, List.drop_left, quoteLoop_body c body _ (pre.length + 1) [c] hb]
  unfold FindEndWithQuote.loop
  rw [if_neg (fun h : 92 = c => hc h.symm), if_pos rfl]
  simp [hd]

/-- A backslash as the last byte, before any unescaped closing quote: the read of
data[end+1] is out of range. -/
theorem FindEndWithQuote_backslash_end (pre body : Str) (c : Nat) (hc : c ≠ 92)
    (hb : escBody c body = true) :
    FindEndWithQuote (pre ++ c :: (body ++ [92])) pre.length c = .panic := by
  simp only [FindEndWithQuote, List.drop_left, quoteLoop_body c body _ (pre.length + 1) [c] hb]
  unfold FindEndWithQuote.loop
  rw [if_neg (fun h : 92 = c => hc h.symm), if_pos rfl]

/-- An unescaped closing quote after the body: the token is the quote, the body without
the escape backslashes, and the quote; the end index is just past the closing quote. -/
theorem FindEndWithQuote_closed (pre body rest : Str) (c : Nat) (hb : escBody c body = true) :
    FindEndWithQuote (pre ++ c :: (body ++ c :: rest)) pre.length c
      = .ok (pre.length + 1 + body.length + 1, c :: (unescape body ++ [c]), none) := by
  simp only [FindEndWithQuote, List.drop_left, quoteLoop_body c body _ (pre.length + 1) [c] hb]
  unfold FindEndWithQuote.loop
  rw [if_pos rfl]
  simp

/-! ## Heads of token lists -/

theorem count_map_lowerByte (s : Str) (c : Nat)
    (hc : c < 65 ∨ (90 < c ∧ c < 97) ∨ (122 < c ∧ c < 128)) :
    (s.map lowerByte).count c = s.count c := by
  induction s with
  | nil => rfl
  | cons x xs ih =>
    have hx : (lowerByte x = c) ↔ (x = c) := by
      unfold lowerByte
      split
      · constructor <;> intro h <;> omega
      · rfl
    simp only [List.map_cons, List.count_cons, ih, beq_iff_eq, hx]

/-- Lower-casing keeps the count of every ASCII byte that is not a letter. -/
theorem ToLower_count (E : Env) (s : Str) (c : Nat)
    (hc : c < 65 ∨ (90 < c ∧ c < 97) ∨ (122 < c ∧ c < 128)) :
    (ToLower E s).count c = s.count c := by
  unfold ToLower
  split
  · exact count_map_lowerByte s c hc
  · exact E.lower_count s c hc

theorem isOpener_not_letter (c : Nat) (h : isOpener c) :
    c < 65 ∨ (90 < c ∧ c < 97) ∨ (122 < c ∧ c < 128) := by
  unfold isOpener at h; omega

theorem mem_Join (toks : List Str) (sep t : Str) (x : Nat) (ht : t ∈ toks) (hx : x ∈ t) :
    x ∈ Join toks sep := by
  induction toks with
  | nil => simp at ht
  | cons a rest ih =>
    cases rest with
    | nil =>
      simp only [List.mem_singleton] at ht
      subst ht
      simpa [Join] using hx
    | cons b rest2 =>
      simp only [Join, List.mem_append]
      rcases List.mem_cons.mp ht with h | h
      · subst h; exact Or.inl (Or.inl hx)
      · exact Or.inr (ih h)

theorem count_Join (toks : List Str) (h : ∀ t ∈ toks, 32 ∉ t) :
    (Join toks [32]).count 32 = toks.length - 1 := by
  induction toks with
  | nil => rfl
  | cons a rest ih =>
    have ha : a.count 32 = 0 := List.count_eq_zero.mpr (h a (List.mem_cons_self a rest))
    cases rest with
    | nil => simpa [Join] using ha
    | cons b rest2 =>
      have := ih (fun t ht => h t (List.mem_cons_of_mem a ht))
      simp only [Join, List.count_append, ha, this, List.length_cons]
      simp only [List.count_singleton_self]
      omega

/-- A head without quote or bracket bytes has one space fewer than it has tokens. -/
theorem head_count (E : Env) (toks : List Str) (hshape : ∀ t ∈ toks, TokShape t)
    (hno : ∀ c, isOpener c → c ∉ ToLower E (Join toks [32])) :
    (ToLower E (Join toks [32])).count 32 = toks.length - 1 := by
  rw [ToLower_count E _ 32 (Or.inl (by omega))]
  apply count_Join
  intro t ht h32
  obtain ⟨c, tl, hc, hop⟩ := (hshape t ht).2.1 h32
  have hmem : c ∈ Join toks [32] := mem_Join toks [32] t c ht (by rw [hc]; simp)
  have hcnt : (ToLower E (Join toks [32])).count c = (Join toks [32]).count c :=
    ToLower_count E _ c (isOpener_not_letter c hop)
  have hpos : 0 < (Join toks [32]).count c := List.count_pos_iff.mpr hmem
  exact hno c hop (List.count_pos_iff.mp (by omega))

theorem GetHeadStmtFromTokens_nat (E : Env) (tokens : List Str) (m : Nat) (hm : 0 < m) :
    GetHeadStmtFromTokens E tokens (m : Int) = ToLower E (Join (tokens.take m) [32]) := by
  unfold GetHeadStmtFromTokens
  dsimp only
  split
  · rename_i h
    have hlen : tokens.length ≤ m := by omega
    rw [Int.toNat_ofNat, List.take_length, List.take_of_length_le hlen]
  · rw [Int.toNat_ofNat]

theorem showLoop_iff (E : Env) (rest : List Str) :
    CheckQuery.showLoop E rest = true ↔ ∃ t ∈ rest, ToLower E t = str "from" := by
  induction rest with
  | nil => simp [CheckQuery.showLoop]
  | cons t ts ih =>
    unfold CheckQuery.showLoop
    split
    · rename_i h; simp [h]
    · rename_i h; simp [h, ih]

/-- The two-word head of scanned tokens is never the three-word command. -/
theorem head2_ne_drop_series_from (E : Env) (tokens : List Str)
    (hshape : ∀ t ∈ tokens, TokShape t) :
    GetHeadStmtFromTokens E tokens 2 ≠ str "drop series from" := by
  intro h
  have h2 := GetHeadStmtFromTokens_nat E tokens 2 (by omega)
  rw [show ((2 : Nat) : Int) = 2 from rfl, h] at h2
  have hcount := head_count E (tokens.take 2)
    (fun t ht => hshape t (List.mem_of_mem_take ht))
    (by
      intro c hc
      rw [← h2]
      rcases hc with rfl | rfl | rfl | rfl | rfl <;> decide)
  rw [← h2] at hcount
  have hc2 : (str "drop series from").count 32 = 2 := by decide
  have hl : (tokens.take 2).length ≤ 2 := by
    rw [List.length_take]; exact Nat.min_le_left _ _
  omega

/-- A three-word head of scanned tokens that reads as a two-word command is the two-word
head: the list has exactly two tokens. -/
theorem head3_two_words (E : Env) (tokens : List Str) (hshape : ∀ t ∈ tokens, TokShape t)
    (target : Str) (hcnt : target.count 32 = 1) (hno : ∀ c, isOpener c → c ∉ target)
    (h : GetHeadStmtFromTokens E tokens 3 = target) :
    GetHeadStmtFromTokens E tokens 2 = target := by
  have h3 := GetHeadStmtFromTokens_nat E tokens 3 (by omega)
  have h2 := GetHeadStmtFromTokens_nat E tokens 2 (by omega)
  rw [show ((3 : Nat) : Int) = 3 from rfl, h] at h3
  rw [show ((2 : Nat) : Int) = 2 from rfl] at h2
  have hcount := head_count E (tokens.take 3)
    (fun t ht => hshape t (List.mem_of_mem_take ht)) (by rw [← h3]; exact hno)
  rw [← h3, hcnt, List.length_take] at hcount
  have hlen : tokens.length = 2 := by omega
  rw [h2, h3, List.take_of_length_le (by omega), List.take_of_length_le (by omega)]

/-! ## The extractors -/

theorem TokShape.wellFormed {t : Str} (h : TokShape t) : WellFormed t := by
  refine ⟨h.1, fun hq => ?_⟩
  match t, h with
  | c :: tl, h =>
    simp only [List.head?_cons, Option.some.injEq] at hq
    have := h.2.2 c tl rfl hq
    obtain ⟨x, tl2, rfl⟩ := List.exists_cons_of_ne_nil this
    simp only [List.length_cons]; omega

/-- The inner slice of a token of two bytes at least. -/
theorem sliceInner_cons (c : Nat) (tl : Str) (h : tl ≠ []) :
    sliceInner (c :: tl) = .ok tl.dropLast := by
  obtain ⟨x, tl2, rfl⟩ := List.exists_cons_of_ne_nil h
  unfold sliceInner
  have hlen : ¬ (c :: x :: tl2).length < 2 := by simp only [List.length_cons]; omega
  rw [if_neg hlen]
  have : (c :: x :: tl2).length - 1 = tl2.length + 1 := by simp only [List.length_cons]; omega
  rw [this, List.take_succ_cons, List.dropLast_eq_take]
  simp

/-- On a well-formed token the quote-stripping statement returns the stripped token. -/
theorem unquote_wellFormed (t : Str) (h : WellFormed t) : unquote t = .ok (stripQuotes t) := by
  obtain ⟨hne, hq⟩ := h
  match t, hne, hq with
  | c :: tl, _, hq =>
    unfold unquote stripQuotes
    by_cases hc : c = 34 ∨ c = 39
    · simp only [if_pos hc]
      apply sliceInner_cons
      intro htl
      subst htl
      have := hq (by simpa using hc)
      simp at this
    · simp only [if_neg hc]

/-! ## The line normalizer -/

/-- ScanTime on a line that ends in a separator and a non-empty run of digits: the loop
stops at the separator and the timestamp is found. -/
theorem ScanTime_found (pre digits : Str) (sep : Nat) (hpre : pre ≠ [])
    (hsep : sep = 32 ∨ sep = 9 ∨ sep = 0) (hdig : digits ≠ [])
    (hall : ∀ d ∈ digits, isDigit d = true) :
    ScanTime (pre ++ sep :: digits) = ((pre.length : Int), true) := by
  have hnd : ¬ isDigit sep = true := by
    unfold isDigit
    rcases hsep with h | h | h <;> simp [h]
  have htw : ((pre ++ sep :: digits).reverse.takeWhile isDigit) = digits.reverse := by
    rw [List.reverse_append, List.reverse_cons, List.append_assoc,
      List.takeWhile_append_of_pos (by simpa using hall)]
    simp [List.takeWhile_cons_of_neg hnd]
  have hp : 0 < pre.length := List.length_pos.mpr hpre
  have hd : 0 < digits.length := List.length_pos.mpr hdig
  have hi : ((pre ++ sep :: digits).length : Int) - 1 - (digits.reverse.length : Int)
      = (pre.length : Int) := by
    simp only [List.length_append, List.length_cons, List.length_reverse]
    push_cast; omega
  unfold ScanTime
  simp only [htw, hi, Int.toNat_ofNat]
  have hget : (pre ++ sep :: digits)[pre.length]? = some sep := by
    rw [List.getElem?_append_right (le_refl _)]; simp
  have h1 : (0 : Int) < (pre.length : Int) := by omega
  have h2 : (pre.length : Int) < ((pre ++ sep :: digits).length : Int) - 1 := by
    simp only [List.length_append, List.length_cons]
    push_cast; omega
  rw [hget]
  simp only [h1, h2, decide_True, Bool.true_and, Prod.mk.injEq, true_and]
  rcases hsep with h | h | h <;> simp [h]

/-- Every line is a part followed by its trailing run of digits, the run ScanTime counts. -/
theorem ScanTime_split (buf : Str) :
    ∃ A D, buf = A ++ D ∧ (∀ d ∈ D, isDigit d = true) ∧
      D.length = (buf.reverse.takeWhile isDigit).length := by
  refine ⟨(buf.reverse.dropWhile isDigit).reverse, (buf.reverse.takeWhile isDigit).reverse,
    ?_, ?_, by simp⟩
  · rw [← List.reverse_append, List.takeWhile_append_dropWhile, List.reverse_reverse]
  · intro d hd
    exact List.mem_takeWhile_imp (List.mem_reverse.mp hd)

/-- When ScanTime finds a timestamp, the line has a valid trailing timestamp. -/
theorem ScanTime_true (buf : Str) (h : (ScanTime buf).2 = true) : HasTimestamp buf := by
  obtain ⟨A, D, hbuf, hD, hlen⟩ := ScanTime_split buf
  unfold ScanTime at h
  simp only [Bool.and_eq_true, decide_eq_true_eq, Bool.or_eq_true, beq_iff_eq] at h
  obtain ⟨⟨h1, h2⟩, h3⟩ := h
  rw [← hlen] at h1 h2 h3
  have hl : buf.length = A.length + D.length := by rw [hbuf, List.length_append]
  rw [hl] at h1 h2 h3
  have hA : 2 ≤ A.length := by push_cast at h1; omega
  have hDl : 1 ≤ D.length := by push_cast at h2; omega
  have hi : (((A.length + D.length : Nat) : Int) - 1 - (D.length : Int)).toNat = A.length - 1 := by
    push_cast; omega
  rw [hi] at h3
  rcases List.eq_nil_or_concat A with hnil | ⟨pre, sep, hA2⟩
  · rw [hnil] at hA; simp at hA
  · rw [List.concat_eq_append] at hA2
    subst hA2
    have hget : buf[(pre ++ [sep]).length - 1]? = some sep := by
      rw [hbuf, List.getElem?_append_left (by simp)]
      simp
    rw [hget] at h3
    simp only [Option.some.injEq] at h3
    refine ⟨pre, sep, D, by rw [hbuf]; simp, ?_, by omega, ?_, ?_⟩
    · intro hp; subst hp; simp at hA
    · intro hd; subst hd; simp at hDl
    · intro d hd
      have := hD d hd
      simp only [isDigit, Bool.and_eq_true, decide_eq_true_eq] at this
      exact this

theorem wrap64_eq (x : Int) (h1 : -(2 : Int) ^ 63 ≤ x) (h2 : x < (2 : Int) ^ 63) :
    wrap64 x = x := by
  unfold wrap64
  have e1 : (2 : Int) ^ 63 = 9223372036854775808 := by norm_num
  have e2 : (2 : Int) ^ 64 = 18446744073709551616 := by norm_num
  rw [e1] at h1 h2 ⊢
  rw [e2]
  omega

theorem digitsValue_fold_ge (d : Str) (acc : Nat) :
    acc ≤ d.foldl (fun a b => a * 10 + (b - 48)) acc := by
  induction d generalizing acc with
  | nil => exact le_refl _
  | cons b t ih =>
    rw [List.foldl_cons]
    exact le_trans (by omega) (ih (acc * 10 + (b - 48)))

/-- The loop of BytesToInt64 computes the base-10 value as long as it fits in an int64. -/
theorem BytesToInt64_fold (d : Str) (hall : ∀ b ∈ d, 48 ≤ b ∧ b ≤ 57) (acc : Nat)
    (hfit : d.foldl (fun a b => a * 10 + (b - 48)) acc < 2 ^ 63) :
    d.foldl (fun res b => wrap64 (wrap64 (res * 10) + (((b + 256 - 48) % 256 : Nat) : Int)))
        (acc : Int)
      = ((d.foldl (fun a b => a * 10 + (b - 48)) acc : Nat) : Int) := by
  induction d generalizing acc with
  | nil => rfl
  | cons b t ih =>
    rw [List.foldl_cons, List.foldl_cons] at *
    have hb := hall b (List.mem_cons_self b t)
    have hge := digitsValue_fold_ge t (acc * 10 + (b - 48))
    have hlt : acc * 10 + (b - 48) < 2 ^ 63 := lt_of_le_of_lt hge hfit
    have e63 : (2 : Nat) ^ 63 = 9223372036854775808 := by norm_num
    have e63i : (2 : Int) ^ 63 = 9223372036854775808 := by norm_num
    rw [e63] at hlt
    have hmod : (b + 256 - 48) % 256 = b - 48 := by omega
    have hw1 : wrap64 ((acc : Int) * 10) = (acc : Int) * 10 :=
      wrap64_eq _ (by rw [e63i]; omega) (by rw [e63i]; omega)
    have hw2 : wrap64 ((acc : Int) * 10 + ((b - 48 : Nat) : Int))
        = ((acc * 10 + (b - 48) : Nat) : Int) := by
      rw [wrap64_eq _ (by rw [e63i]; omega) (by rw [e63i]; omega)]
      push_cast; rfl
    rw [hmod, hw1, hw2]
    exact ih (fun x hx => hall x (List.mem_cons_of_mem b hx)) _ hfit

theorem BytesToInt64_digits (d : Str) (hall : ∀ b ∈ d, 48 ≤ b ∧ b ≤ 57)
    (hfit : digitsValue d < 2 ^ 63) : BytesToInt64 d = (digitsValue d : Int) := by
  unfold BytesToInt64 digitsValue
  exact BytesToInt64_fold d hall 0 hfit

/-! ## Facts for whole queries -/

theorem ToLower_ascii (E : Env) (s : Str) (h : s.all (fun c => decide (c < 128)) = true) :
    ToLower E s = s.map lowerByte := by
  unfold ToLower; rw [if_pos h]

theorem ToLower_select (E : Env) : ToLower E (str "select") = str "select" := by
  rw [ToLower_ascii E _ (by decide)]; decide

theorem ToLower_star (E : Env) : ToLower E (str "*") = str "*" := by
  rw [ToLower_ascii E _ (by decide)]; decide

theorem ToLower_from (E : Env) : ToLower E (str "from") = str "from" := by
  rw [ToLower_ascii E _ (by decide)]; decide

theorem identLoop_skip (E : Env) (kws : List Str) (fn : List Str → Outcome Str) (t : Str)
    (rest : List Str) (h : ToLower E t ∉ kws) :
    GetIdentifierFromTokens.loop E kws fn (t :: rest)
      = GetIdentifierFromTokens.loop E kws fn rest := by
  rw [GetIdentifierFromTokens.loop, if_neg]
  intro hc
  apply h
  obtain ⟨k, hk, hk2⟩ := List.any_eq_true.mp hc.1
  rw [of_decide_eq_true hk2]; exact hk

theorem identLoop_hit (E : Env) (kws : List Str) (fn : List Str → Outcome Str) (t : Str)
    (rest : List Str) (h : ToLower E t ∈ kws) (hrest : rest ≠ []) :
    GetIdentifierFromTokens.loop E kws fn (t :: rest)
      = (fn rest).bind fun m => .ok (m, none) := by
  rw [GetIdentifierFromTokens.loop, if_pos]
  exact ⟨List.any_eq_true.mpr ⟨_, h, decide_eq_true rfl⟩, hrest⟩

/-- The measurement lookup on the tokens of a select statement with a single from. -/
theorem GetMeasurementFromTokens_select (E : Env) (suffix : List Str) (hs : suffix ≠ []) :
    GetMeasurementFromTokens E (str "select" :: str "*" :: str "from" :: suffix)
      = (getMeasurement suffix).bind fun m => .ok (m, none) := by
  unfold GetMeasurementFromTokens GetIdentifierFromTokens
  rw [identLoop_skip E _ _ _ _ (by rw [ToLower_select]; decide),
    identLoop_skip E _ _ _ _ (by rw [ToLower_star]; decide),
    identLoop_hit E _ _ _ _ (by rw [ToLower_from]; decide) hs]

/-- TrimSpace leaves a string alone that begins and ends with an ASCII byte that is not
white space. -/
theorem TrimSpace_eq_self (E : Env) (c d : Nat) (mid : Str)
    (hc : c < 128 ∧ asciiSpace c = false) (hd : d < 128 ∧ asciiSpace d = false) :
    TrimSpace E (c :: (mid ++ [d])) = c :: (mid ++ [d]) := by
  unfold TrimSpace trimSpaceLeft
  rw [if_neg (by omega), hc.2]
  simp only [Bool.false_eq_true, if_false]
  have hrev : (c :: (mid ++ [d])).reverse = d :: (c :: mid).reverse := by
    rw [← List.cons_append, List.reverse_append]; rfl
  rw [hrev]
  unfold trimSpaceRight
  rw [if_neg (by omega), hd.2]
  simp only [Bool.false_eq_true, if_false]
  rw [← hrev, List.reverse_reverse]

/-- The trimming of ScanTokens leaves a query alone that begins with an ASCII byte that is
not white space and ends with one that is neither white space nor a semicolon. -/
theorem trimQuery_eq_self (E : Env) (c d : Nat) (mid : Str)
    (hc : c < 128 ∧ asciiSpace c = false) (hd : d < 128 ∧ asciiSpace d = false) (hd2 : d ≠ 59) :
    trimQuery E (c :: (mid ++ [d])) = c :: (mid ++ [d]) := by
  unfold trimQuery
  rw [TrimSpace_eq_self E c d mid hc hd]
  unfold TrimRight
  rw [← List.cons_append]
  apply List.rdropWhile_concat_neg
  have h32 : d ≠ 32 := by
    intro h; subst h; simp [asciiSpace] at hd
  simp [hd2, h32]

theorem stripQuotes_quoted (q : Nat) (m : Str) (hq : q = 34 ∨ q = 39) (c : Nat) :
    stripQuotes (q :: (m ++ [c])) = m := by
  show (if q = 34 ∨ q = 39 then (m ++ [c]).dropLast else q :: (m ++ [c])) = m
  rw [if_pos hq, List.dropLast_concat]

theorem WellFormed_quoted (q : Nat) (m : Str) (c : Nat) : WellFormed (q :: (m ++ [c])) := by
  refine ⟨by simp, fun _ => ?_⟩
  simp only [List.length_cons, List.length_append, List.length_nil]
  omega

/-- The scan of the three words that open a plain select statement. -/
theorem scanFrom_select_from (X : Str) :
    scanFrom 0 (str "select * from " ++ X) []
      = scanFrom 0 (32 :: X) [str "select", str "*", str "from"] := by
  have e0 : str "select * from " ++ X
      = 115 :: ([101, 108, 101, 99, 116] ++ (32 :: (42 :: ([] ++ (32 ::
          (102 :: ([114, 111, 109] ++ (32 :: X)))))))) := rfl
  rw [e0,
    scanFrom_word _ [] 115 [101, 108, 101, 99, 116] _ (dropSpaces_cons _ _ (by decide))
      (by decide) (by decide) (Or.inr ⟨_, rfl⟩),
    scanFrom_word _ _ 42 [] _ (by rw [dropSpaces_space, dropSpaces_cons _ _ (by decide)])
      (by decide) (by decide) (Or.inr ⟨_, rfl⟩),
    scanFrom_word _ _ 102 [114, 111, 109] _
      (by rw [dropSpaces_space, dropSpaces_cons _ _ (by decide)])
      (by decide) (by decide) (Or.inr ⟨_, rfl⟩)]
  rfl

/-- Scan step for a single dot followed by another byte. -/
theorem scanFrom_dot (data : Str) (acc : List Str) (c : Nat) (tl : Str)
    (hdrop : dropSpaces data = 46 :: c :: tl) (hc : c ≠ 46) :
    scanFrom 0 data acc = scanFrom 0 (c :: tl) (acc ++ [[46]]) := by
  rw [scanFrom_dots data acc (c :: tl) hdrop]
  have : dotRun (c :: tl) = 0 := by simp [dotRun, hc]
  rw [this]; rfl

/-- The tokens of a select from three double-quoted segments joined by dots. -/
theorem ScanTokens_three_segments (E : Env) (db rp m : Str)
    (hdb : 34 ∉ db ∧ 92 ∉ db) (hrp : 34 ∉ rp ∧ 92 ∉ rp) (hm : 34 ∉ m ∧ 92 ∉ m) :
    ScanTokens E (str "select * from " ++
        (34 :: (db ++ 34 :: 46 :: 34 :: (rp ++ 34 :: 46 :: 34 :: (m ++ [34]))))) 0
      = .ok [str "select", str "*", str "from", 34 :: (db ++ [34]), [46], 34 :: (rp ++ [34]),
          [46], 34 :: (m ++ [34])] := by
  have hP : str "select * from " = [115, 101, 108, 101, 99, 116, 32, 42, 32, 102, 114, 111,
      109, 32] := rfl
  have hq : str "select * from " ++
        (34 :: (db ++ 34 :: 46 :: 34 :: (rp ++ 34 :: 46 :: 34 :: (m ++ [34]))))
      = 115 :: (([101, 108, 101, 99, 116, 32, 42, 32, 102, 114, 111, 109, 32, 34] ++
          (db ++ 34 :: 46 :: 34 :: (rp ++ 34 :: 46 :: 34 :: m))) ++ [34]) := by
    rw [hP]; simp
  have htrim := trimQuery_eq_self E 115 34
    ([101, 108, 101, 99, 116, 32, 42, 32, 102, 114, 111, 109, 32, 34] ++
      (db ++ 34 :: 46 :: 34 :: (rp ++ 34 :: 46 :: 34 :: m)))
    (by decide) (by decide) (by decide)
  rw [← hq] at htrim
  unfold ScanTokens
  rw [scanAll_eq_scanFrom, htrim, scanFrom_select_from,
    scanFrom_quoted _ _ 34 db _ (Or.inl rfl)
      (by rw [dropSpaces_space, dropSpaces_cons _ _ (by decide)]) hdb.1 hdb.2,
    scanFrom_dot _ _ 34 _ (dropSpaces_cons _ _ (by decide)) (by decide),
    scanFrom_quoted _ _ 34 rp _ (Or.inl rfl) (dropSpaces_cons _ _ (by decide)) hrp.1 hrp.2,
    scanFrom_dot _ _ 34 _ (dropSpaces_cons _ _ (by decide)) (by decide),
    scanFrom_quoted _ _ 34 m [] (Or.inl rfl) (dropSpaces_cons _ _ (by decide)) hm.1 hm.2,
    scanFrom_nil]
  rfl

/-- The tokens of a select from a single word. -/
theorem ScanTokens_select_word (E : Env) (c : Nat) (w : Str)
    (htrim : trimQuery E (str "select * from " ++ c :: w) = str "select * from " ++ c :: w)
    (hc : c ≠ 32 ∧ c ≠ 34 ∧ c ≠ 39 ∧ c ≠ 40 ∧ c ≠ 91 ∧ c ≠ 123 ∧ c ≠ 46) (hw : 32 ∉ w) :
    ScanTokens E (str "select * from " ++ c :: w) 0
      = .ok [str "select", str "*", str "from", c :: w] := by
  unfold ScanTokens
  rw [scanAll_eq_scanFrom, htrim, scanFrom_select_from,
    scanFrom_word _ _ c w [] (by rw [dropSpaces_space, dropSpaces_cons _ _ hc.1, List.append_nil])
      hc hw (Or.inl rfl),
    scanFrom_nil]
  rfl

/-- The extractor on a first token that is not followed by a dot token. -/
theorem getMeasurement_first (t : Str) (more : List Str) (hwf : WellFormedFirst t)
    (hmore : more.length < 2 ∨ (more.head? ≠ some [46] ∧ more.head? ≠ some [46, 46])) :
    getMeasurement (t :: more) = .ok (measurementOfToken t) := by
  obtain ⟨⟨hne, hq⟩, hdot⟩ := hwf
  have hcond : ¬ (3 ≤ (t :: more).length ∧
      ((t :: more)[1]? = some [46] ∨ (t :: more)[1]? = some [46, 46])) := by
    intro ⟨h1, h2⟩
    simp only [List.length_cons] at h1
    rcases hmore with h | h
    · omega
    · cases more with
      | nil => simp at h1
      | cons x xs =>
        simp only [List.getElem?_cons_succ, List.getElem?_cons_zero] at h2
        simp only [List.head?_cons] at h
        rcases h2 with h2 | h2
        · exact h.1 h2
        · exact h.2 h2
  unfold getMeasurement
  rw [if_neg hcond]
  match t, hne, hq, hdot with
  | c :: tl, _, hq, hdot =>
    simp only [List.head?_cons, Option.some.injEq, ne_eq] at hq hdot
    unfold measurementOfToken
    simp only [List.head?_cons, Option.some.injEq, List.tail_cons]
    by_cases h47 : c = 47
    · simp only [if_pos h47]
    · simp only [if_neg h47]
      by_cases hquote : c = 34 ∨ c = 39
      · simp only [if_pos hquote]
        apply sliceInner_cons
        intro htl
        subst htl
        have := hq hquote
        simp at this
      · simp only [if_neg hquote]
        cases hi : IndexByte (c :: tl) 46 with
        | none => rfl
        | some i =>
          simp only
          exact unquote_wellFormed _
            (hdot h47 (fun h => hquote (Or.inl h)) (fun h => hquote (Or.inr h)) i hi)

/-! ## Facts for the classifier loops and the bracket tokens -/

/-- The select loop returns (true, true) or (false, false), the first exactly when some from
token has no into token before it. -/
theorem selectLoop_spec (E : Env) (rest : List Str) :
    (CheckQuery.selectLoop E rest = (true, true) ∨ CheckQuery.selectLoop E rest = (false, false)) ∧
    (CheckQuery.selectLoop E rest = (true, true) ↔
      ∃ pre k post, rest = pre ++ k :: post ∧ (∀ t ∈ pre, ToLower E t ≠ str "into") ∧
        ToLower E k = str "from") := by
  have hne : str "from" ≠ str "into" := by decide
  induction rest with
  | nil =>
    refine ⟨Or.inr rfl, ?_⟩
    constructor
    · intro h; simp [CheckQuery.selectLoop] at h
    · rintro ⟨pre, k, post, h, _⟩; simp at h
  | cons t ts ih =>
    rw [CheckQuery.selectLoop]
    by_cases hinto : ToLower E t = str "into"
    · rw [if_pos hinto]
      refine ⟨Or.inr rfl, ?_⟩
      constructor
      · intro h; simp at h
      · rintro ⟨pre, k, post, h, hpre, hk⟩
        cases pre with
        | nil =>
          simp only [List.nil_append, List.cons.injEq] at h
          rw [← h.1, hinto] at hk
          exact absurd hk.symm hne
        | cons u us =>
          simp only [List.cons_append, List.cons.injEq] at h
          exact absurd hinto (h.1 ▸ hpre u (List.mem_cons_self u us))
    · rw [if_neg hinto]
      by_cases hfrom : ToLower E t = str "from"
      · rw [if_pos hfrom]
        exact ⟨Or.inl rfl, fun _ => ⟨[], t, ts, rfl, by simp, hfrom⟩, fun _ => rfl⟩
      · rw [if_neg hfrom]
        refine ⟨ih.1, ?_⟩
        rw [ih.2]
        constructor
        · rintro ⟨pre, k, post, h, hpre, hk⟩
          refine ⟨t :: pre, k, post, by rw [h]; rfl, ?_, hk⟩
          intro u hu
          rcases List.mem_cons.mp hu with hu | hu
          · rw [hu]; exact hinto
          · exact hpre u hu
        · rintro ⟨pre, k, post, h, hpre, hk⟩
          cases pre with
          | nil =>
            simp only [List.nil_append, List.cons.injEq] at h
            rw [← h.1] at hk
            exact absurd hk hfrom
          | cons u us =>
            simp only [List.cons_append, List.cons.injEq] at h
            exact ⟨us, k, post, h.2, fun v hv => hpre v (List.mem_cons_of_mem u hv), hk⟩

/-- The keyword loop passes over a run of tokens that lower-case to no keyword. -/
theorem identLoop_skip_all (E : Env) (kws : List Str) (fn : List Str → Outcome Str)
    (pre rest : List Str) (h : ∀ u ∈ pre, ToLower E u ∉ kws) :
    GetIdentifierFromTokens.loop E kws fn (pre ++ rest)
      = GetIdentifierFromTokens.loop E kws fn rest := by
  induction pre with
  | nil => rfl
  | cons u us ih =>
    rw [List.cons_append, identLoop_skip E kws fn u _ (h u (List.mem_cons_self u us))]
    exact ih (fun v hv => h v (List.mem_cons_of_mem u hv))

/-- The keyword loop fails when no token but the last lower-cases to a keyword. -/
theorem identLoop_none (E : Env) (kws : List Str) (fn : List Str → Outcome Str)
    (tokens : List Str)
    (h : ∀ pre t post, tokens = pre ++ t :: post → post ≠ [] → ToLower E t ∉ kws) :
    GetIdentifierFromTokens.loop E kws fn tokens = .ok ([], some Err.ErrIllegalQL) := by
  induction tokens with
  | nil => rfl
  | cons t ts ih =>
    rw [GetIdentifierFromTokens.loop, if_neg]
    · apply ih
      intro pre u post hts hpost
      exact h (t :: pre) u post (by rw [hts]; rfl) hpost
    · rintro ⟨hany, hts⟩
      obtain ⟨k, hk, hk2⟩ := List.any_eq_true.mp hany
      exact h [] t ts rfl hts (by rw [of_decide_eq_true hk2]; exact hk)

/-- The space-skipping loop stops after a run of spaces followed by another byte. -/
theorem dropSpaces_run (sp : Str) (c : Nat) (tl : Str) (hsp : ∀ x ∈ sp, x = 32) (hc : c ≠ 32) :
    skipSpaces (sp ++ c :: tl) = sp.length ∧ dropSpaces (sp ++ c :: tl) = c :: tl := by
  induction sp with
  | nil => exact ⟨by simp [skipSpaces, hc], dropSpaces_cons c tl hc⟩
  | cons b bs ih =>
    have hb : b = 32 := hsp b (List.mem_cons_self b bs)
    have := ih (fun x hx => hsp x (List.mem_cons_of_mem b hx))
    subst hb
    refine ⟨?_, ?_⟩
    · rw [List.cons_append]
      simp only [skipSpaces, if_true, this.1, List.length_cons]
    · rw [List.cons_append, dropSpaces_space, this.2]

/-- A bracket case with the closer present: the token runs to the first closer. -/
theorem groupAt_closed (start o cl : Nat) (mid rest : Str) (ho : o ≠ cl) (hmid : cl ∉ mid) :
    groupAt start (o :: (mid ++ cl :: rest)) cl
      = .ok (((start + mid.length + 2 : Nat) : Int), some (o :: (mid ++ [cl])), none) := by
  have hidx : IndexByte (o :: (mid ++ cl :: rest)) cl = some (mid.length + 1) := by
    have := IndexByte_append (o :: mid) rest cl
      (by simp only [List.mem_cons, not_or]; exact ⟨fun h => ho h.symm, hmid⟩)
    simpa using this
  unfold groupAt
  rw [hidx]
  simp only [List.take_succ_cons, Outcome.ok.injEq, Prod.mk.injEq, Option.some.injEq,
    List.cons.injEq, true_and, and_true]
  refine ⟨by push_cast; omega, ?_⟩
  rw [show mid ++ cl :: rest = (mid ++ [cl]) ++ rest by simp,
    show mid.length + 1 = (mid ++ [cl]).length by simp, List.take_left]

/-- A bracket case without the closer: ErrUnclosed and no token. -/
theorem groupAt_unclosed (start o cl : Nat) (tl : Str) (ho : o ≠ cl) (htl : cl ∉ tl) :
    groupAt start (o :: tl) cl = .ok (-1, none, some Err.ErrUnclosed) := by
  have hidx : IndexByte (o :: tl) cl = none := by
    apply IndexByte_of_not_mem
    simp only [List.mem_cons, not_or]
    exact ⟨fun h => ho h.symm, htl⟩
  unfold groupAt
  rw [hidx]

/-- ScanToken on an opening bracket is the bracket case for its closer. -/
theorem tokenAt_bracket (start o cl : Nat) (tl : Str)
    (hpair : (o = 40 ∧ cl = 41) ∨ (o = 91 ∧ cl = 93) ∨ (o = 123 ∧ cl = 125)) :
    tokenAt start o tl = groupAt start (o :: tl) cl := by
  unfold tokenAt
  rcases hpair with ⟨h1, h2⟩ | ⟨h1, h2⟩ | ⟨h1, h2⟩ <;> subst h1 <;> subst h2 <;> simp

/-! ## The token limit -/

/-- The scan loop only appends to the tokens it starts with. -/
theorem scanLoop_extends (n : Nat) (k : Nat) :
    ∀ (data : Str) (acc res : List Str) (e : Option Err),
      scanLoop n k data acc = .ok (res, e) → ∃ more, res = acc ++ more := by
  induction k with
  | zero => intro data acc res e h; simp [scanLoop] at h
  | succ k ih =>
    intro data acc res e h
    unfold scanLoop at h
    split at h
    · simp only [Outcome.ok.injEq, Prod.mk.injEq] at h
      exact ⟨[], by rw [← h.1, List.append_nil]⟩
    · split at h
      · simp at h
      · simp at h
      · simp only [Outcome.ok.injEq, Prod.mk.injEq] at h
        exact ⟨[], by rw [← h.1, List.append_nil]⟩
      · simp only [Outcome.ok.injEq, Prod.mk.injEq] at h
        exact ⟨[], by rw [← h.1, List.append_nil]⟩
      · rename_i adv tok hst
        split at h
        · simp only [Outcome.ok.injEq, Prod.mk.injEq] at h
          exact ⟨[], by rw [← h.1, List.append_nil]⟩
        · dsimp only at h
          split at h
          · simp only [Outcome.ok.injEq, Prod.mk.injEq] at h
            exact ⟨[tok], h.1.symm⟩
          · obtain ⟨more, hm⟩ := ih _ _ res e h
            exact ⟨tok :: more, by rw [hm, List.append_assoc]; rfl⟩

/-- With a positive limit the scan loop returns the first tokens of the unlimited scan. -/
theorem scanLoop_limit (n : Nat) (hn : 0 < n) (k : Nat) :
    ∀ (data : Str) (acc res : List Str) (e : Option Err), acc.length < n →
      scanLoop 0 k data acc = .ok (res, e) →
      ∃ e2, scanLoop n k data acc = .ok (res.take n, e2) := by
  induction k with
  | zero => intro data acc res e _ h; simp [scanLoop] at h
  | succ k ih =>
    intro data acc res e hacc h
    have hstop : ∀ e0 : Option Err, (Outcome.ok (acc, e0) : Outcome (List Str × Option Err))
        = .ok (res, e) → ∃ e2, (Outcome.ok (acc, e0) : Outcome (List Str × Option Err))
          = .ok (res.take n, e2) := by
      intro e0 h0
      simp only [Outcome.ok.injEq, Prod.mk.injEq] at h0
      refine ⟨e0, ?_⟩
      rw [← h0.1, List.take_of_length_le (by omega)]
    unfold scanLoop at h ⊢
    split at h
    · rename_i hd
      rw [if_pos hd]; exact hstop _ h
    · rename_i hd
      rw [if_neg hd]
      split at h
      · simp at h
      · simp at h
      · exact hstop _ h
      · exact hstop _ h
      · rename_i adv tok hst
        split at h
        · rename_i hadv
          rw [if_pos hadv]; exact hstop _ h
        · rename_i hadv
          rw [if_neg hadv]
          dsimp only at h ⊢
          rw [if_neg (by omega)] at h
          by_cases hfull : 0 < n ∧ (acc ++ [tok]).length = n
          · rw [if_pos hfull]
            obtain ⟨more, hm⟩ := scanLoop_extends 0 k _ _ res e h
            refine ⟨none, ?_⟩
            rw [hm, ← hfull.2, List.take_left]
          · rw [if_neg hfull]
            apply ih _ _ res e _ h
            simp only [List.length_append, List.length_singleton] at hfull ⊢
            omega

/-- With a positive limit the scan loop returns at most that many tokens. -/
theorem scanLoop_bound (n : Nat) (hn : 0 < n) (k : Nat) :
    ∀ (data : Str) (acc res : List Str) (e : Option Err), acc.length < n →
      scanLoop n k data acc = .ok (res, e) → res.length ≤ n := by
  induction k with
  | zero => intro data acc res e _ h; simp [scanLoop] at h
  | succ k ih =>
    intro data acc res e hacc h
    unfold scanLoop at h
    split at h
    · simp only [Outcome.ok.injEq, Prod.mk.injEq] at h
      rw [← h.1]; omega
    · split at h
      · simp at h
      · simp at h
      · simp only [Outcome.ok.injEq, Prod.mk.injEq] at h
        rw [← h.1]; omega
      · simp only [Outcome.ok.injEq, Prod.mk.injEq] at h
        rw [← h.1]; omega
      · rename_i adv tok hst
        split at h
        · simp only [Outcome.ok.injEq, Prod.mk.injEq] at h
          rw [← h.1]; omega
        · dsimp only at h
          split at h
          · rename_i hfull
            simp only [Outcome.ok.injEq, Prod.mk.injEq] at h
            rw [← h.1, hfull.2]
          · rename_i hfull
            apply ih _ _ res e _ h
            simp only [List.length_append, List.length_singleton] at hfull ⊢
            omega

/-- For a limit n > 0: on a query on which the unlimited scan returns a token list, the
limited scan returns its first min(n, length) tokens; and whatever the limited scan returns
has at most n tokens. -/
theorem ScanTokens_limit_takes_first (E : Env) (q : Str) (n : Nat) (hn : 0 < n) :
    (∀ toks, ScanTokens E q 0 = .ok toks →
      ScanTokens E q n = .ok (toks.take (min n toks.length))) ∧
    (∀ ts, ScanTokens E q n = .ok ts → ts.length ≤ n) := by
  constructor
  · intro toks h
    unfold ScanTokens scanAll at h ⊢
    cases hl : scanLoop 0 ((trimQuery E q).length + 1) (trimQuery E q) [] with
    | panic => rw [hl] at h; simp [Outcome.bind] at h
    | fuel => rw [hl] at h; simp [Outcome.bind] at h
    | ok r =>
      obtain ⟨res, e⟩ := r
      rw [hl] at h
      simp only [Outcome.bind, Outcome.ok.injEq] at h
      subst h
      obtain ⟨e2, h2⟩ := scanLoop_limit n hn _ _ [] res e (by simpa using hn) hl
      rw [h2]
      simp only [Outcome.bind, Outcome.ok.injEq]
      rcases Nat.le_total n res.length with hle | hle
      · rw [Nat.min_eq_left hle]
      · rw [Nat.min_eq_right hle, List.take_length, List.take_of_length_le hle]
  · intro ts h
    unfold ScanTokens scanAll at h
    cases hl : scanLoop n ((trimQuery E q).length + 1) (trimQuery E q) [] with
    | panic => rw [hl] at h; simp [Outcome.bind] at h
    | fuel => rw [hl] at h; simp [Outcome.bind] at h
    | ok r =>
      obtain ⟨res, e⟩ := r
      rw [hl] at h
      simp only [Outcome.bind, Outcome.ok.injEq] at h
      subst h
      exact scanLoop_bound n hn _ _ [] res e (by simpa using hn) hl

/-! ## Database statements -/

/-- For scanned tokens, the two-word head of the code reads as a phrase of two words exactly
when the first two tokens lower-case to it. -/
theorem head2_iff (E : Env) (tokens : List Str) (hshape : ∀ t ∈ tokens, TokShape t)
    (phrase : Str) (hcnt : phrase.count 32 = 1) (hno : ∀ c, isOpener c → c ∉ phrase) :
    GetHeadStmtFromTokens E tokens 2 = phrase ↔ TwoWordHead E tokens phrase := by
  have h2 := GetHeadStmtFromTokens_nat E tokens 2 (by omega)
  rw [show ((2 : Nat) : Int) = 2 from rfl] at h2
  constructor
  · intro h
    rw [h] at h2
    have hcount := head_count E (tokens.take 2)
      (fun t ht => hshape t (List.mem_of_mem_take ht)) (by rw [← h2]; exact hno)
    rw [← h2, hcnt, List.length_take] at hcount
    match tokens, h2 with
    | [], _ => simp at hcount
    | [_], _ => simp at hcount
    | t0 :: t1 :: rest, h2 =>
      refine ⟨t0, t1, rest, rfl, ?_⟩
      rw [h2]
      simp [Join]
  · rintro ⟨t0, t1, rest, ht, hl⟩
    rw [h2, ht, ← hl]
    simp [Join]

/-- On a well-formed first token the database extractor returns the database of the token. -/
theorem getDatabase_wellFormed (t : Str) (more : List Str) (h : WellFormed t) :
    getDatabase (t :: more) = .ok (databaseOfToken t) := by
  obtain ⟨hne, hq⟩ := h
  match t, hne, hq with
  | c :: tl, _, hq =>
    simp only [List.head?_cons, Option.some.injEq] at hq
    unfold getDatabase databaseOfToken
    simp only [List.head?_cons, Option.some.injEq, List.tail_cons]
    by_cases hc : c = 34 ∨ c = 39
    · simp only [if_pos hc]
      apply sliceInner_cons
      intro htl
      subst htl
      have := hq hc
      simp at this
    · simp only [if_neg hc]
      cases IndexByte (c :: tl) 46 <;> rfl

/-! ## The write buffer -/

/-- One write keeps every byte: what was flushed plus the buffer grows by the bytes written,
whether or not the flush succeeds. -/
theorem Write_conserves (FlushSize : Nat) (healthy : Bool) (hb : HttpBackend) (points : Str) :
    (HttpBackend.Write FlushSize healthy hb points).1.flushed.flatten
        ++ (HttpBackend.Write FlushSize healthy hb points).1.buffer
      = hb.flushed.flatten ++ hb.buffer ++ points := by
  unfold HttpBackend.Write
  dsimp only
  split
  · split
    · simp [List.flatten_append]
    · simp
  · simp

theorem writeAll_conserves (FlushSize : Nat) (writes : List Str) :
    ∀ hb : HttpBackend,
      (HttpBackend.writeAll FlushSize hb writes).flushed.flatten
          ++ (HttpBackend.writeAll FlushSize hb writes).buffer
        = hb.flushed.flatten ++ hb.buffer ++ writes.flatten := by
  induction writes with
  | nil => intro hb; simp [HttpBackend.writeAll]
  | cons p ps ih =>
    intro hb
    rw [HttpBackend.writeAll, ih, Write_conserves, List.flatten_cons]
    simp only [List.append_assoc]

/-! ## Claims -/

/-- C1: for a query whose first token lower-cases to select, the first later token that
lower-cases to from or into decides the result of CheckQuery: (true, true) when it is
from, (false, false) when it is into. -/
theorem C1_select_first_keyword (E : Env) (q t0 k : Str) (pre post : List Str)
    (hscan : ScanTokens E q 0 = .ok (t0 :: (pre ++ k :: post)))
    (hsel : ToLower E t0 = str "select")
    (hpre : ∀ t ∈ pre, ToLower E t ≠ str "from" ∧ ToLower E t ≠ str "into") :
    (ToLower E k = str "from" →
      CheckQuery E q = .ok (t0 :: (pre ++ k :: post), true, true)) ∧
    (ToLower E k = str "into" →
      CheckQuery E q = .ok (t0 :: (pre ++ k :: post), false, false)) := by
  have hne : str "from" ≠ str "into" := by decide
  constructor
  · intro hk
    have hk2 : ToLower E k ≠ str "into" := by rw [hk]; exact hne
    simp only [CheckQuery, hscan, bind_ok, CheckQuery.classify, hsel, if_true,
      selectLoop_skip E pre (k :: post) hpre, CheckQuery.selectLoop, if_neg hk2, if_pos hk]
  · intro hk
    simp only [CheckQuery, hscan, bind_ok, CheckQuery.classify, hsel, if_true,
      selectLoop_skip E pre (k :: post) hpre, CheckQuery.selectLoop, if_pos hk]

/-- C1 at the two statements of the specification: a plain select is routable and needs
the consistency check, a select into is not routable. -/
theorem C1_select_first_keyword_witness :
    CheckQuery (asciiEnv []) (str "select * from cpu")
        = .ok ([str "select", str "*", str "from", str "cpu"], true, true) ∧
    CheckQuery (asciiEnv []) (str "select * into newcpu from cpu")
        = .ok ([str "select", str "*", str "into", str "newcpu", str "from", str "cpu"],
            false, false) :=
  ⟨(C1_select_first_keyword (asciiEnv []) (str "select * from cpu") (str "select")
      (str "from") [str "*"] [str "cpu"] (by decide!) (by decide!) (by decide!)).1
      (by decide!),
   (C1_select_first_keyword (asciiEnv []) (str "select * into newcpu from cpu")
      (str "select") (str "into") [str "*"] [str "newcpu", str "from", str "cpu"]
      (by decide!) (by decide!) (by decide!)).2 (by decide!)⟩

/-- C2: for a query with at least one token whose first token does not lower-case to
select, over any command table: a show statement with a later from token gives (true, true);
otherwise the statement is routable iff the two-word or the three-word head is in the
table, and it needs the consistency check iff it is routable and the head that matched
(the two-word head when it is in the table, else the three-word head) is "delete from",
"drop measurement" or "drop series from". -/
theorem C2_generic_commands (E : Env) (q t0 : Str) (rest : List Str)
    (hscan : ScanTokens E q 0 = .ok (t0 :: rest))
    (hsel : ToLower E t0 ≠ str "select") :
    ((ToLower E t0 = str "show" ∧ ∃ t ∈ rest, ToLower E t = str "from") →
      CheckQuery E q = .ok (t0 :: rest, true, true)) ∧
    (¬ (ToLower E t0 = str "show" ∧ ∃ t ∈ rest, ToLower E t = str "from") →
      ∃ routable needsCheck : Bool,
        CheckQuery E q = .ok (t0 :: rest, routable, needsCheck) ∧
        (routable = true ↔
          E.SupportCmds (GetHeadStmtFromTokens E (t0 :: rest) 2) = true ∨
          E.SupportCmds (GetHeadStmtFromTokens E (t0 :: rest) 3) = true) ∧
        (needsCheck = true ↔ routable = true ∧
          ((if E.SupportCmds (GetHeadStmtFromTokens E (t0 :: rest) 2) = true
              then GetHeadStmtFromTokens E (t0 :: rest) 2
              else GetHeadStmtFromTokens E (t0 :: rest) 3) ∈
            [str "delete from", str "drop measurement", str "drop series from"]))) := by
  have hshape := ScanTokens_shape E q 0 _ hscan
  have hcq : CheckQuery E q = (CheckQuery.classify E (t0 :: rest)).bind
      (fun r => Outcome.ok (t0 :: rest, r.1, r.2)) := by
    simp only [CheckQuery, hscan, bind_ok]
  constructor
  · intro hshow
    rw [hcq]
    have hl := (showLoop_iff E rest).mpr hshow.2
    simp only [CheckQuery.classify, if_neg hsel, if_pos (And.intro hshow.1 hl), bind_ok]
  · intro hshow
    have hcl : CheckQuery.classify E (t0 :: rest) = .ok (CheckQuery.generic E (t0 :: rest)) := by
      simp only [CheckQuery.classify, if_neg hsel]
      rw [if_neg]
      rw [showLoop_iff]
      exact hshow
    rw [hcq, hcl, bind_ok]
    refine ⟨(CheckQuery.generic E (t0 :: rest)).1, (CheckQuery.generic E (t0 :: rest)).2, rfl, ?_⟩
    unfold CheckQuery.generic
    dsimp only
    cases h2 : E.SupportCmds (GetHeadStmtFromTokens E (t0 :: rest) 2) with
    | true =>
      have hne := head2_ne_drop_series_from E (t0 :: rest) hshape
      simp only [if_true, true_or, true_and, decide_eq_true_eq, List.mem_cons, List.mem_singleton,
        hne, or_false, List.not_mem_nil]
    | false =>
      simp only [Bool.false_eq_true, if_false, false_or]
      cases h3 : E.SupportCmds (GetHeadStmtFromTokens E (t0 :: rest) 3) with
      | true =>
        have hdf : GetHeadStmtFromTokens E (t0 :: rest) 3 ≠ str "delete from" := by
          intro h
          have := head3_two_words E (t0 :: rest) hshape _ (by decide)
            (by intro c hc; rcases hc with rfl | rfl | rfl | rfl | rfl <;> decide) h
          rw [this, ← h, h3] at h2
          exact absurd h2 (by decide)
        have hdm : GetHeadStmtFromTokens E (t0 :: rest) 3 ≠ str "drop measurement" := by
          intro h
          have := head3_two_words E (t0 :: rest) hshape _ (by decide)
            (by intro c hc; rcases hc with rfl | rfl | rfl | rfl | rfl <;> decide) h
          rw [this, ← h, h3] at h2
          exact absurd h2 (by decide)
        simp only [if_true, true_and, decide_eq_true_eq, List.mem_cons, List.mem_singleton,
          hdf, hdm, false_or, or_false, List.not_mem_nil]
      | false =>
        simp only [Bool.false_eq_true, if_false, false_and, and_self]

/-- C2 at "delete from cpu" with "delete from" in the table: the statement is routable
and needs the consistency check. -/
theorem C2_generic_commands_witness :
    CheckQuery (asciiEnv [str "delete from"]) (str "delete from cpu")
      = .ok ([str "delete", str "from", str "cpu"], true, true) := by
  obtain ⟨r, c, h, hr, hc⟩ := (C2_generic_commands (asciiEnv [str "delete from"])
    (str "delete from cpu") (str "delete") [str "from", str "cpu"]
    (by decide!) (by decide!)).2 (by decide!)
  have hr2 : r = true := hr.mpr (Or.inl (by decide!))
  have hc2 : c = true := hc.mpr ⟨hr2, by decide!⟩
  rw [h, hr2, hc2]

/-- C3, the claim fails: a measurement without space, quote, dot or trailing semicolon that
starts with a bracket group is cut at the closing bracket; an empty one gives ErrIllegalQL;
one that ends in a tab loses the tab. -/
theorem C3_counterexample :
    (∀ x ∈ str "(a)b", x ≠ 32 ∧ x ≠ 34 ∧ x ≠ 39 ∧ x ≠ 46) ∧
    (str "(a)b").getLast? ≠ some 59 ∧
    GetMeasurementFromInfluxQL (asciiEnv []) (str "select * from " ++ str "(a)b")
      = .ok (str "(a)", none) ∧
    GetMeasurementFromInfluxQL (asciiEnv []) (str "select * from " ++ str "")
      = .ok ([], some Err.ErrIllegalQL) ∧
    GetMeasurementFromInfluxQL (asciiEnv []) (str "select * from " ++ str "cpu\t")
      = .ok (str "cpu", none) := by
  decide!

/-- C3 as amended: after a first token t that is well-formed and not followed by a dot
token, getMeasurement returns t itself when it begins with a slash, t without its first and
last byte when it begins with a quote, else the part after the first dot with enclosing
quotes stripped, else t; and for every non-empty m without space, quote and dot bytes that
does not begin with an opening bracket and that the trimming of the query leaves alone,
GetMeasurementFromInfluxQL on "select * from " followed by m returns m and no error. -/
theorem C3_first_token_measurement (E : Env) (t : Str) (more : List Str) (c : Nat) (w : Str)
    (hwf : WellFormedFirst t)
    (hmore : more.length < 2 ∨ (more.head? ≠ some [46] ∧ more.head? ≠ some [46, 46]))
    (hm : ∀ x ∈ c :: w, x ≠ 32 ∧ x ≠ 34 ∧ x ≠ 39 ∧ x ≠ 46)
    (hbr : c ≠ 40 ∧ c ≠ 91 ∧ c ≠ 123)
    (htrim : trimQuery E (str "select * from " ++ c :: w) = str "select * from " ++ c :: w) :
    getMeasurement (t :: more) = .ok (measurementOfToken t) ∧
    GetMeasurementFromInfluxQL E (str "select * from " ++ c :: w) = .ok (c :: w, none) := by
  refine ⟨getMeasurement_first t more hwf hmore, ?_⟩
  have hc := hm c (List.mem_cons_self c w)
  have hw : 32 ∉ w := fun h => (hm 32 (List.mem_cons_of_mem c h)).1 rfl
  have h46 : 46 ∉ c :: w := fun h => (hm 46 h).2.2.2 rfl
  unfold GetMeasurementFromInfluxQL
  rw [ScanTokens_select_word E c w htrim
    ⟨hc.1, hc.2.1, hc.2.2.1, hbr.1, hbr.2.1, hbr.2.2, hc.2.2.2⟩ hw, bind_ok,
    GetMeasurementFromTokens_select E [c :: w] (by simp)]
  have hwf2 : WellFormedFirst (c :: w) := by
    refine ⟨⟨by simp, fun h => ?_⟩, fun _ _ _ i hi => ?_⟩
    · simp only [List.head?_cons, Option.some.injEq] at h
      omega
    · rw [IndexByte_of_not_mem _ _ h46] at hi
      simp at hi
  rw [getMeasurement_first (c :: w) [] hwf2 (Or.inl (by simp)), bind_ok]
  unfold measurementOfToken
  simp only [List.head?_cons, Option.some.injEq]
  rw [IndexByte_of_not_mem _ _ h46]
  by_cases h47 : c = 47
  · rw [if_pos h47]
  · rw [if_neg h47, if_neg (by omega)]

/-- C3 as amended, at the single-token form db."cpu" and at the query of the
specification. -/
theorem C3_first_token_measurement_witness :
    getMeasurement [str "db.\"cpu\"", str "where"] = .ok (str "cpu") ∧
    GetMeasurementFromInfluxQL (asciiEnv []) (str "select * from cpu") = .ok (str "cpu", none) :=
  C3_first_token_measurement (asciiEnv []) (str "db.\"cpu\"") [str "where"] 99 (str "pu")
    ⟨by decide, fun _ _ _ i hi => by
      have : i = 2 := by
        have h2 : IndexByte (str "db.\"cpu\"") 46 = some 2 := by decide
        rw [h2] at hi
        exact (Option.some.inj hi).symm
      subst this
      decide⟩
    (Or.inl (by decide)) (by decide) (by decide) (by decide!)

/-- C4: on the token suffixes a, ".", b, ".", c, ... and a, "..", c, ... getMeasurement
returns the rightmost segment c with its enclosing quotes stripped, whatever follows; hence
for double-quoted segments without a double quote or backslash inside,
GetMeasurementFromInfluxQL on select * from "db"."rp"."m" returns m and no error. -/
theorem C4_rightmost_segment (E : Env) (a b c : Str) (rest : List Str) (db rp m : Str)
    (hc : WellFormed c)
    (hdb : 34 ∉ db ∧ 92 ∉ db) (hrp : 34 ∉ rp ∧ 92 ∉ rp) (hm : 34 ∉ m ∧ 92 ∉ m) :
    getMeasurement (a :: [46] :: b :: [46] :: c :: rest) = .ok (stripQuotes c) ∧
    getMeasurement (a :: [46, 46] :: c :: rest) = .ok (stripQuotes c) ∧
    GetMeasurementFromInfluxQL E
        (str "select * from \"" ++ db ++ str "\".\"" ++ rp ++ str "\".\"" ++ m ++ str "\"")
      = .ok (m, none) := by
  refine ⟨?_, ?_, ?_⟩
  · simp [getMeasurement, unquote_wellFormed c hc]
  · simp [getMeasurement, unquote_wellFormed c hc]
  · have hq : str "select * from \"" ++ db ++ str "\".\"" ++ rp ++ str "\".\"" ++ m ++ str "\""
        = str "select * from " ++
          (34 :: (db ++ 34 :: 46 :: 34 :: (rp ++ 34 :: 46 :: 34 :: (m ++ [34])))) := by
      simp only [List.append_assoc]
      rfl
    unfold GetMeasurementFromInfluxQL
    rw [hq, ScanTokens_three_segments E db rp m hdb hrp hm, bind_ok,
      GetMeasurementFromTokens_select E _ (by simp)]
    have h5 : getMeasurement [34 :: (db ++ [34]), [46], 34 :: (rp ++ [34]), [46],
        34 :: (m ++ [34])] = .ok (stripQuotes (34 :: (m ++ [34]))) := by
      simp [getMeasurement, unquote_wellFormed _ (WellFormed_quoted 34 m 34)]
    rw [h5, bind_ok, stripQuotes_quoted 34 m (Or.inl rfl) 34]

/-- C4 at the query of the specification: the measurement of "mydb"."rp"."cpu" is cpu. -/
theorem C4_rightmost_segment_witness :
    getMeasurement [str "\"mydb\"", str ".", str "\"rp\"", str ".", str "\"cpu\""]
      = .ok (str "cpu") ∧
    getMeasurement [str "\"mydb\"", str "..", str "\"cpu\"", str "where"] = .ok (str "cpu") ∧
    GetMeasurementFromInfluxQL (asciiEnv []) (str "select * from \"mydb\".\"rp\".\"cpu\"")
      = .ok (str "cpu", none) :=
  ⟨(C4_rightmost_segment (asciiEnv []) (str "\"mydb\"") (str "\"rp\"") (str "\"cpu\"") []
      (str "mydb") (str "rp") (str "cpu") (by decide) (by decide) (by decide) (by decide)).1,
   (C4_rightmost_segment (asciiEnv []) (str "\"mydb\"") (str "\"rp\"") (str "\"cpu\"")
      [str "where"]
      (str "mydb") (str "rp") (str "cpu") (by decide) (by decide) (by decide) (by decide)).2.1,
   (C4_rightmost_segment (asciiEnv []) (str "\"mydb\"") (str "\"rp\"") (str "\"cpu\"") []
      (str "mydb") (str "rp") (str "cpu") (by decide) (by decide) (by decide) (by decide)).2.2⟩

/-- C5, the claim fails: for the tokens after from in a two-segment query with a where
clause, the fourth token is not a dot, and getMeasurement returns the first segment, not
the second. -/
theorem C5_counterexample :
    ScanTokens (asciiEnv []) (str "select * from \"rp\".\"cpu\" where host = 'a'") 0
      = .ok [str "select", str "*", str "from", str "\"rp\"", str ".", str "\"cpu\"",
          str "where", str "host", str "=", str "'a'"] ∧
    getMeasurement [str "\"rp\"", str ".", str "\"cpu\"", str "where", str "host", str "=",
        str "'a'"] = .ok (str "rp") ∧
    getMeasurement [str "\"rp\"", str ".", str "\"cpu\"", str "where", str "host", str "=",
        str "'a'"] ≠ .ok (stripQuotes (str "\"cpu\"")) := by
  decide!

/-- C5 as amended: on exactly three tokens a, ".", b getMeasurement returns b with its
enclosing quotes stripped; when further tokens follow and the fourth token is not a dot, it
returns the first segment a with its enclosing quotes stripped. -/
theorem C5_two_segment (a b : Str) (ha : WellFormed a) (hb : WellFormed b) :
    getMeasurement [a, [46], b] = .ok (stripQuotes b) ∧
    ∀ (d : Str) (more : List Str), d ≠ [46] →
      getMeasurement (a :: [46] :: b :: d :: more) = .ok (stripQuotes a) := by
  constructor
  · simp [getMeasurement, unquote_wellFormed b hb]
  · intro d more hd
    simp [getMeasurement, hd, unquote_wellFormed a ha]

/-- C5 as amended, at the two-segment form alone and followed by a where clause. -/
theorem C5_two_segment_witness :
    getMeasurement [str "\"rp\"", [46], str "\"cpu\""] = .ok (str "cpu") ∧
    getMeasurement (str "\"rp\"" :: [46] :: str "\"cpu\"" :: str "where" :: [str "host"])
      = .ok (str "rp") :=
  ⟨(C5_two_segment (str "\"rp\"") (str "\"cpu\"") (by decide) (by decide)).1,
   (C5_two_segment (str "\"rp\"") (str "\"cpu\"") (by decide) (by decide)).2
     (str "where") [str "host"] (by decide)⟩

/-- C6: for a query without the bytes of double quote, single quote, opening round, square
or curly bracket and dot, ScanTokens(q, 0) is the list of non-empty pieces of the trimmed
query split on the space byte, in order. -/
theorem C6_plain_query_fields (E : Env) (q : Str)
    (h : ∀ x ∈ q, x ≠ 34 ∧ x ≠ 39 ∧ x ≠ 40 ∧ x ≠ 91 ∧ x ≠ 123 ∧ x ≠ 46) :
    ScanTokens E q 0 = .ok (fields (trimQuery E q)) := by
  have hns : ∀ x ∈ trimQuery E q, x ≠ 34 ∧ x ≠ 39 ∧ x ≠ 40 ∧ x ≠ 91 ∧ x ≠ 123 ∧ x ≠ 46 :=
    fun x hx => h x ((trimQuery_sub E q).subset hx)
  unfold ScanTokens
  rw [scanAll_eq_scanFrom, scanFrom_plain _ _ [] (le_refl _) hns]
  simp [Outcome.bind]

/-- C6 at the query of the specification. -/
theorem C6_plain_query_fields_witness :
    ScanTokens (asciiEnv []) (str "select * from cpu") 0
      = .ok [str "select", str "*", str "from", str "cpu"] :=
  (C6_plain_query_fields (asciiEnv []) (str "select * from cpu") (by decide)).trans (by decide!)

/-- C7, the code at the failing input: a backslash as the last byte inside a quote makes
FindEndWithQuote read data[end+1] past the end (a run-time panic), where the claim has
ErrUnmatchedQuote; the unterminated quote without a backslash does give ErrUnmatchedQuote. -/
theorem C7_backslash_at_end_panics :
    FindEndWithQuote (str "\"cpu\\") 0 34 = .panic ∧
    ScanToken (str "\"cpu\\") false = .panic ∧
    ScanTokens (asciiEnv []) (str "select * from \"cpu\\") 0 = .panic ∧
    FindEndWithQuote (str "\"cpu") 0 34 = .ok (4, str "\"cpu", some Err.ErrUnmatchedQuote) := by
  decide!

/-- C8, the claim fails: the scan of the query stops with ErrUnmatchedQuote at the
unterminated quote, yet CheckQuery classifies the tokens scanned before it as routable and
GetMeasurementFromInfluxQL returns the measurement with no error. -/
theorem C8_counterexample :
    scanAll (asciiEnv []) (str "select * from cpu where host = 'a") 0
      = .ok ([str "select", str "*", str "from", str "cpu", str "where", str "host", str "="],
          some Err.ErrUnmatchedQuote) ∧
    CheckQuery (asciiEnv []) (str "select * from cpu where host = 'a")
      = .ok ([str "select", str "*", str "from", str "cpu", str "where", str "host", str "="],
          true, true) ∧
    GetMeasurementFromInfluxQL (asciiEnv []) (str "select * from cpu where host = 'a")
      = .ok (str "cpu", none) := by
  decide!

/-- C8 as amended: when a scan step returns an error, ScanTokens returns the tokens scanned
before it and drops the error; CheckQuery and GetMeasurementFromInfluxQL then work on those
tokens, so that a select whose first keyword token is from is still routable. -/
theorem C8_scan_error_keeps_tokens (E : Env) (q : Str) (toks : List Str) (e : Err)
    (h : scanAll E q 0 = .ok (toks, some e)) :
    ScanTokens E q 0 = .ok toks ∧
    GetMeasurementFromInfluxQL E q = GetMeasurementFromTokens E toks ∧
    GetDatabaseFromInfluxQL E q = GetDatabaseFromTokens E toks ∧
    (∀ (t0 k : Str) (pre post : List Str), toks = t0 :: (pre ++ k :: post) →
      ToLower E t0 = str "select" →
      (∀ t ∈ pre, ToLower E t ≠ str "from" ∧ ToLower E t ≠ str "into") →
      ToLower E k = str "from" → CheckQuery E q = .ok (toks, true, true)) := by
  have hs : ScanTokens E q 0 = .ok toks := by simp only [ScanTokens, h, bind_ok]
  refine ⟨hs, ?_, ?_, ?_⟩
  · simp only [GetMeasurementFromInfluxQL, hs, bind_ok]
  · simp only [GetDatabaseFromInfluxQL, hs, bind_ok]
  · intro t0 k pre post htoks hsel hpre hk
    have hk2 : ToLower E k ≠ str "into" := by rw [hk]; decide
    subst htoks
    simp only [CheckQuery, hs, bind_ok, CheckQuery.classify, hsel, if_true,
      selectLoop_skip E pre (k :: post) hpre, CheckQuery.selectLoop, if_neg hk2, if_pos hk]

/-- C8 as amended, at the query with an unterminated quote in its where clause. -/
theorem C8_scan_error_keeps_tokens_witness :
    ScanTokens (asciiEnv []) (str "select * from cpu where host = 'a") 0
      = .ok [str "select", str "*", str "from", str "cpu", str "where", str "host", str "="] ∧
    CheckQuery (asciiEnv []) (str "select * from cpu where host = 'a")
      = .ok ([str "select", str "*", str "from", str "cpu", str "where", str "host", str "="],
          true, true) :=
  ⟨(C8_scan_error_keeps_tokens (asciiEnv []) (str "select * from cpu where host = 'a")
      [str "select", str "*", str "from", str "cpu", str "where", str "host", str "="]
      Err.ErrUnmatchedQuote (by decide!)).1,
   (C8_scan_error_keeps_tokens (asciiEnv []) (str "select * from cpu where host = 'a")
      [str "select", str "*", str "from", str "cpu", str "where", str "host", str "="]
      Err.ErrUnmatchedQuote (by decide!)).2.2.2 (str "select") (str "from") [str "*"]
      [str "cpu", str "where", str "host", str "="] (by decide!) (by decide!) (by decide!)
      (by decide!)⟩

/-- C9, the code at failing inputs: CheckQuery panics on the empty query and on a query of
white space and semicolons (tokens[0] of an empty token list), GetMeasurementFromInfluxQL
panics on a measurement token that ends in a dot (m[0] of an empty string), and all three
entry points panic on a quote that ends in a backslash. -/
theorem C9_entry_points_panic :
    CheckQuery (asciiEnv []) (str "") = .panic ∧
    CheckQuery (asciiEnv []) (str " ; ") = .panic ∧
    GetMeasurementFromInfluxQL (asciiEnv []) (str "select * from db.") = .panic ∧
    CheckQuery (asciiEnv []) (str "select * from \"cpu\\") = .panic ∧
    GetMeasurementFromInfluxQL (asciiEnv []) (str "select * from \"cpu\\") = .panic ∧
    GetDatabaseFromInfluxQL (asciiEnv []) (str "show series on \"db\\") = .panic := by
  decide!

/-- C10: when the right-trimmed line ends in a non-empty run of ASCII digits preceded by a
space, tab or NUL byte that is not the first byte of the line, LineToNano returns the
trimmed line for "ns" and "n", and the trimmed line followed by 3, 6 or 9 zero digits for
"u", "ms" and "s". -/
theorem C10_LineToNano_fixed_precisions (E : Env) (line pre digits : Str) (sep : Nat)
    (htrim : TrimRight line [32, 9, 13, 10] = pre ++ sep :: digits)
    (hpre : pre ≠ []) (hsep : sep = 32 ∨ sep = 9 ∨ sep = 0) (hdig : digits ≠ [])
    (hall : ∀ d ∈ digits, 48 ≤ d ∧ d ≤ 57) :
    LineToNano E line (str "ns") = pre ++ sep :: digits ∧
    LineToNano E line (str "n") = pre ++ sep :: digits ∧
    LineToNano E line (str "u") = (pre ++ sep :: digits) ++ str "000" ∧
    LineToNano E line (str "ms") = (pre ++ sep :: digits) ++ str "000000" ∧
    LineToNano E line (str "s") = (pre ++ sep :: digits) ++ str "000000000" := by
  have hall2 : ∀ d ∈ digits, isDigit d = true := by
    intro d hd
    have := hall d hd
    simp [isDigit, this.1, this.2]
  have hst := ScanTime_found pre digits sep hpre hsep hdig hall2
  have e1 : str "n" ≠ str "ns" := by decide
  have e2 : str "u" ≠ str "ns" := by decide
  have e3 : str "u" ≠ str "n" := by decide
  have e4 : str "ms" ≠ str "ns" := by decide
  have e5 : str "ms" ≠ str "n" := by decide
  have e6 : str "ms" ≠ str "u" := by decide
  have e7 : str "s" ≠ str "ns" := by decide
  have e8 : str "s" ≠ str "n" := by decide
  have e9 : str "s" ≠ str "u" := by decide
  have e10 : str "s" ≠ str "ms" := by decide
  refine ⟨?_, ?_, ?_, ?_, ?_⟩ <;>
    simp only [LineToNano, htrim, hst, if_true, true_or, or_true, e1, e2, e3, e4, e5, e6, e7, e8,
      e9, e10, or_self, if_false]

/-- C10 at the line of the specification: seconds precision appends nine zero digits. -/
theorem C10_LineToNano_fixed_precisions_witness :
    LineToNano (asciiEnv []) (str "cpu value=1 1434055562") (str "s")
      = str "cpu value=1 1434055562000000000" :=
  (C10_LineToNano_fixed_precisions (asciiEnv []) (str "cpu value=1 1434055562")
    (str "cpu value=1") (str "1434055562") 32 (by decide!) (by decide) (by decide) (by decide)
    (by decide!)).2.2.2.2

/-- C11: when the right-trimmed line has no valid trailing timestamp, LineToNano returns,
for every precision, the trimmed line followed by one space and the decimal rendering of
the current time in nanoseconds. -/
theorem C11_LineToNano_stamps_now (E : Env) (line precision : Str)
    (h : ¬ HasTimestamp (TrimRight line [32, 9, 13, 10])) :
    LineToNano E line precision
      = TrimRight line [32, 9, 13, 10] ++ 32 :: Int64ToBytes E.nowUnixNano := by
  have hf : ¬ (ScanTime (TrimRight line [32, 9, 13, 10])).2 = true :=
    fun hc => h (ScanTime_true _ hc)
  unfold LineToNano
  simp only [if_neg hf]

/-- C11 at the line of the specification, with the clock at 1700000000000000000. -/
theorem C11_LineToNano_stamps_now_witness :
    LineToNano clockEnv (str "cpu value=1") (str "ns") = str "cpu value=1 1700000000000000000" :=
  (C11_LineToNano_stamps_now clockEnv (str "cpu value=1") (str "ns") (by
    rintro ⟨pre, sep, digits, h1, h2, h3, h4, h5⟩
    have hfound := ScanTime_found pre digits sep h2 h3 h4 (by
      intro d hd
      have := h5 d hd
      simp [isDigit, this.1, this.2])
    rw [← h1] at hfound
    have hf : (ScanTime (TrimRight (str "cpu value=1") [32, 9, 13, 10])).2 = false := by decide!
    rw [hfound] at hf
    exact Bool.noConfusion hf)).trans (by decide!)

/-- C12: on a line with a valid trailing timestamp of digits after a separator, for a
precision other than "ns", "n", "u", "ms" and "s", and provided the value of the digits and
its product with the multiplier of the precision fit in a signed 64-bit integer, LineToNano
returns the bytes before the separator, one space, and the decimal rendering of the
product. -/
theorem C12_LineToNano_multiplies (E : Env) (line pre digits p : Str) (sep : Nat)
    (htrim : TrimRight line [32, 9, 13, 10] = pre ++ sep :: digits)
    (hpre : pre ≠ []) (hsep : sep = 32 ∨ sep = 9 ∨ sep = 0) (hdig : digits ≠ [])
    (hall : ∀ d ∈ digits, 48 ≤ d ∧ d ≤ 57)
    (hp : p ≠ str "ns" ∧ p ≠ str "n" ∧ p ≠ str "u" ∧ p ≠ str "ms" ∧ p ≠ str "s")
    (hv : digitsValue digits < 2 ^ 63)
    (hprod : -(2 : Int) ^ 63 ≤ (digitsValue digits : Int) * E.GetPrecisionMultiplier p ∧
      (digitsValue digits : Int) * E.GetPrecisionMultiplier p < (2 : Int) ^ 63) :
    LineToNano E line p
      = pre ++ 32 :: Int64ToBytes ((digitsValue digits : Int) * E.GetPrecisionMultiplier p) := by
  have hall2 : ∀ d ∈ digits, isDigit d = true := by
    intro d hd
    have := hall d hd
    simp [isDigit, this.1, this.2]
  have hst := ScanTime_found pre digits sep hpre hsep hdig hall2
  have hdrop : (pre ++ sep :: digits).drop ((pre.length : Int) + 1).toNat = digits := by
    rw [show ((pre.length : Int) + 1).toNat = pre.length + 1 by omega, ← List.drop_drop,
      List.drop_left]
    rfl
  have htake : (pre ++ sep :: digits).take ((pre.length : Int)).toNat = pre := by
    rw [Int.toNat_ofNat, List.take_left]
  unfold LineToNano
  simp only [htrim, hst, if_true, hdrop, htake, BytesToInt64_digits digits hall hv,
    wrap64_eq _ hprod.1 hprod.2, hp.1, hp.2.1, hp.2.2.1, hp.2.2.2.1, hp.2.2.2.2, or_self,
    if_false, Join, List.append_assoc, List.singleton_append]

/-- C12 at a line stamped in hours: 2 hours are 7200000000000 nanoseconds. -/
theorem C12_LineToNano_multiplies_witness :
    LineToNano clockEnv (str "cpu value=1\t2\n") (str "h") = str "cpu value=1 7200000000000" :=
  (C12_LineToNano_multiplies clockEnv (str "cpu value=1\t2\n") (str "cpu value=1") (str "2")
    (str "h") 9 (by decide!) (by decide) (by decide) (by decide) (by decide) (by decide)
    (by decide!) (by decide!)).trans (by decide!)

/-- C13: on a token list produced by ScanTokens, CheckDatabaseFromTokens returns check true
iff the first two tokens lower-case to "show databases", "create database" or
"drop database", isShow true iff they lower-case to "show databases", and as dbName the
database of the third token for a create or drop form that has one, the empty string in
every other case. -/
theorem C13_database_statement (E : Env) (q : Str) (n : Nat) (tokens : List Str)
    (hscan : ScanTokens E q n = .ok tokens) :
    ∃ (check isShow : Bool) (db : Str),
      CheckDatabaseFromTokens E tokens = .ok (check, isShow, db) ∧
      (check = true ↔ TwoWordHead E tokens (str "show databases") ∨
        TwoWordHead E tokens (str "create database") ∨
        TwoWordHead E tokens (str "drop database")) ∧
      (isShow = true ↔ TwoWordHead E tokens (str "show databases")) ∧
      (∀ t0 t1 t rest, tokens = t0 :: t1 :: t :: rest →
        TwoWordHead E tokens (str "create database") ∨
          TwoWordHead E tokens (str "drop database") →
        db = databaseOfToken t) ∧
      (¬ ((TwoWordHead E tokens (str "create database") ∨
            TwoWordHead E tokens (str "drop database")) ∧ 3 ≤ tokens.length) →
        db = []) := by
  have hshape := ScanTokens_shape E q n tokens hscan
  have hno : ∀ phrase : Str, (∀ x ∈ phrase, x ≠ 34 ∧ x ≠ 39 ∧ x ≠ 40 ∧ x ≠ 91 ∧ x ≠ 123) →
      ∀ c, isOpener c → c ∉ phrase := by
    intro phrase hp c hc hmem
    have := hp c hmem
    unfold isOpener at hc
    omega
  have hS := head2_iff E tokens hshape (str "show databases") (by decide) (hno _ (by decide))
  have hC := head2_iff E tokens hshape (str "create database") (by decide) (hno _ (by decide))
  have hD := head2_iff E tokens hshape (str "drop database") (by decide) (hno _ (by decide))
  unfold CheckDatabaseFromTokens
  dsimp only
  by_cases hcond : decide (GetHeadStmtFromTokens E tokens 2 = str "create database" ∨
      GetHeadStmtFromTokens E tokens 2 = str "drop database") = true ∧ 3 ≤ tokens.length
  · rw [if_pos hcond]
    obtain ⟨halter, hlen⟩ := hcond
    have halter2 := of_decide_eq_true halter
    match tokens, hlen, hshape with
    | t0 :: t1 :: t :: rest, _, hshape =>
      have hwf : WellFormed t := (hshape t (by simp)).wellFormed
      simp only [List.drop_succ_cons, List.drop_zero, getDatabase_wellFormed t rest hwf, bind_ok]
      refine ⟨_, _, _, rfl, ?_, ?_, ?_, ?_⟩
      · rw [halter, Bool.or_true]
        simp only [true_iff]
        rcases halter2 with h | h
        · exact Or.inr (Or.inl (hC.mp h))
        · exact Or.inr (Or.inr (hD.mp h))
      · rw [decide_eq_true_eq]; exact hS
      · intro u0 u1 u urest heq _
        simp only [List.cons.injEq] at heq
        rw [heq.2.2.1]
      · intro hneg
        exfalso
        apply hneg
        refine ⟨?_, by simp only [List.length_cons]; omega⟩
        rcases halter2 with h | h
        · exact Or.inl (hC.mp h)
        · exact Or.inr (hD.mp h)
  · rw [if_neg hcond]
    refine ⟨_, _, _, rfl, ?_, ?_, ?_, ?_⟩
    · rw [Bool.or_eq_true, decide_eq_true_eq, decide_eq_true_eq, hS, hC, hD]
    · rw [decide_eq_true_eq]; exact hS
    · intro t0 t1 t rest heq halt
      exfalso
      apply hcond
      refine ⟨decide_eq_true ?_, by rw [heq]; simp only [List.length_cons]; omega⟩
      rcases halt with h | h
      · exact Or.inl (hC.mpr h)
      · exact Or.inr (hD.mpr h)
    · intro _; rfl

/-- C13 at the two statements of the specification. -/
theorem C13_database_statement_witness :
    CheckDatabaseFromTokens (asciiEnv []) [str "create", str "database", str "mydb"]
      = .ok (true, false, str "mydb") ∧
    CheckDatabaseFromTokens (asciiEnv []) [str "show", str "databases"]
      = .ok (true, true, []) := by
  constructor
  · obtain ⟨check, isShow, db, h, hc, hs, hd, _⟩ := C13_database_statement (asciiEnv [])
      (str "create database mydb") 0 [str "create", str "database", str "mydb"] (by decide!)
    have hcreate : TwoWordHead (asciiEnv []) [str "create", str "database", str "mydb"]
        (str "create database") := ⟨_, _, _, rfl, by decide!⟩
    have h1 : check = true := hc.mpr (Or.inr (Or.inl hcreate))
    have h2 : isShow = false := by
      cases hb : isShow with
      | false => rfl
      | true =>
        obtain ⟨t0, t1, rest, heq, hl⟩ := hs.mp hb
        simp only [List.cons.injEq] at heq
        rw [← heq.1, ← heq.2.1] at hl
        exact absurd hl (by decide!)
    have h3 : db = str "mydb" := (hd _ _ _ _ rfl (Or.inl hcreate)).trans (by decide)
    rw [h, h1, h2, h3]
  · obtain ⟨check, isShow, db, h, hc, hs, _, he⟩ := C13_database_statement (asciiEnv [])
      (str "show databases") 0 [str "show", str "databases"] (by decide!)
    have hshow : TwoWordHead (asciiEnv []) [str "show", str "databases"]
        (str "show databases") := ⟨_, _, _, rfl, by decide!⟩
    have h3 : db = [] := he (fun hc2 => absurd hc2.2 (by decide))
    rw [h, hc.mpr (Or.inl hshow), hs.mpr hshow, h3]

/-- C14, the claim fails: the two tokens delete, from have the two-word head "delete from",
yet CheckDeleteOrDropMeasurementFromTokens returns false on them. -/
theorem C14_counterexample :
    ScanTokens (asciiEnv []) (str "delete from") 0 = .ok [str "delete", str "from"] ∧
    GetHeadStmtFromTokens (asciiEnv []) [str "delete", str "from"] 2 = str "delete from" ∧
    CheckDeleteOrDropMeasurementFromTokens (asciiEnv []) [str "delete", str "from"] = false := by
  decide!

/-- C14 as amended: CheckDeleteOrDropMeasurementFromTokens returns true if and only if the
list has at least three tokens and its lower-cased two-word head is "delete from",
"drop measurement" or "drop series". -/
theorem C14_delete_or_drop (E : Env) (tokens : List Str) :
    CheckDeleteOrDropMeasurementFromTokens E tokens = true ↔
      3 ≤ tokens.length ∧
      (GetHeadStmtFromTokens E tokens 2 = str "delete from" ∨
       GetHeadStmtFromTokens E tokens 2 = str "drop measurement" ∨
       GetHeadStmtFromTokens E tokens 2 = str "drop series") := by
  unfold CheckDeleteOrDropMeasurementFromTokens
  by_cases h : 3 ≤ tokens.length
  · rw [if_pos h]
    simp only [decide_eq_true_eq, h, true_and]
  · rw [if_neg h]
    simp only [Bool.false_eq_true, h, false_and]

/-- C15, the claim fails: a select statement with neither an into nor a from token is not
routable. -/
theorem C15_counterexample :
    CheckQuery (asciiEnv []) (str "select 1") = .ok ([str "select", str "1"], false, false) := by
  decide!

/-- C15 as amended: for a query whose first token lower-cases to select, CheckQuery returns
routable and needsConsistencyCheck with the same value, which is true exactly when some
from token has no into token before it (false when an into comes first or when there is
neither). -/
theorem C15_select_routable (E : Env) (q t0 : Str) (rest : List Str)
    (hscan : ScanTokens E q 0 = .ok (t0 :: rest))
    (hsel : ToLower E t0 = str "select") :
    ∃ b : Bool, CheckQuery E q = .ok (t0 :: rest, b, b) ∧
      (b = true ↔ ∃ pre k post, rest = pre ++ k :: post ∧
        (∀ t ∈ pre, ToLower E t ≠ str "into") ∧ ToLower E k = str "from") := by
  have hcq : CheckQuery E q
      = .ok (t0 :: rest, (CheckQuery.selectLoop E rest).1, (CheckQuery.selectLoop E rest).2) := by
    simp only [CheckQuery, hscan, bind_ok, CheckQuery.classify, hsel, if_true]
  obtain ⟨hcases, hiff⟩ := selectLoop_spec E rest
  rcases hcases with h | h
  · exact ⟨true, by rw [hcq, h], by simpa using hiff.mp h⟩
  · refine ⟨false, by rw [hcq, h], ?_⟩
    constructor
    · intro hb; exact absurd hb (by decide)
    · intro hex
      have := hiff.mpr hex
      rw [h] at this
      exact absurd this (by decide)

/-- C15 as amended, at a select without keywords and at a plain select. -/
theorem C15_select_routable_witness :
    (∃ b : Bool, CheckQuery (asciiEnv []) (str "select 1")
        = .ok ([str "select", str "1"], b, b) ∧
      (b = true ↔ ∃ pre k post, [str "1"] = pre ++ k :: post ∧
        (∀ t ∈ pre, ToLower (asciiEnv []) t ≠ str "into") ∧
        ToLower (asciiEnv []) k = str "from")) ∧
    (∃ b : Bool, CheckQuery (asciiEnv []) (str "select * from cpu")
        = .ok ([str "select", str "*", str "from", str "cpu"], b, b) ∧
      (b = true ↔ ∃ pre k post, [str "*", str "from", str "cpu"] = pre ++ k :: post ∧
        (∀ t ∈ pre, ToLower (asciiEnv []) t ≠ str "into") ∧
        ToLower (asciiEnv []) k = str "from")) :=
  ⟨C15_select_routable (asciiEnv []) (str "select 1") (str "select") [str "1"]
      (by decide!) (by decide!),
   C15_select_routable (asciiEnv []) (str "select * from cpu") (str "select")
      [str "*", str "from", str "cpu"] (by decide!) (by decide!)⟩

/-- C16, the code at the failing input: on a query whose quote ends in a backslash the
unlimited scan ScanTokens(q, 0) panics in FindEndWithQuote, while ScanTokens(q, 2) and
ScanTokens(q, 3) return the tokens before the quote; so there is no token list of
ScanTokens(q, 0) for them to be the first tokens of. With the limit 4 the scan reaches the
quote and panics as well. -/
theorem C16_limit_returns_where_unlimited_panics :
    ScanTokens (asciiEnv []) (str "select * from \"cpu\\") 0 = .panic ∧
    ScanTokens (asciiEnv []) (str "select * from \"cpu\\") 2 = .ok [str "select", str "*"] ∧
    ScanTokens (asciiEnv []) (str "select * from \"cpu\\") 3
      = .ok [str "select", str "*", str "from"] ∧
    ScanTokens (asciiEnv []) (str "select * from \"cpu\\") 4 = .panic := by
  decide!

/-- C17: a write to a healthy backend returns no error and appends its bytes to the
buffer; the buffer is flushed at once, as one payload, exactly when its size has reached
FlushSize, and is then empty for the next write; so after any sequence of writes the
flushed payloads followed by the remaining buffer are the written payloads in order, with
no byte dropped or duplicated. -/
theorem C17_write_buffer (FlushSize : Nat) (hb : HttpBackend) (points : Str)
    (writes : List Str) :
    (HttpBackend.Write FlushSize true hb points).2 = false ∧
    (FlushSize ≤ (hb.buffer ++ points).length →
      (HttpBackend.Write FlushSize true hb points).1
        = { buffer := [], flushed := hb.flushed ++ [hb.buffer ++ points] }) ∧
    (¬ FlushSize ≤ (hb.buffer ++ points).length →
      (HttpBackend.Write FlushSize true hb points).1
        = { buffer := hb.buffer ++ points, flushed := hb.flushed }) ∧
    (HttpBackend.writeAll FlushSize hb writes).flushed.flatten
        ++ (HttpBackend.writeAll FlushSize hb writes).buffer
      = hb.flushed.flatten ++ hb.buffer ++ writes.flatten := by
  refine ⟨?_, ?_, ?_, writeAll_conserves FlushSize writes hb⟩
  · unfold HttpBackend.Write
    dsimp only
    split <;> simp
  · intro h
    unfold HttpBackend.Write
    dsimp only
    rw [if_pos h]
    simp
  · intro h
    unfold HttpBackend.Write
    dsimp only
    rw [if_neg h]

/-- C17 in the test configuration (FlushSize 1000) with the payload of the write test: one
write of its 100 bytes stays in the buffer, and of ten writes the tenth brings the buffer
to 1000 bytes and flushes them all. -/
theorem C17_write_buffer_witness :
    HttpBackend.Write 1000 true { buffer := [], flushed := [] } testPayload
      = ({ buffer := testPayload, flushed := [] }, false) ∧
    (HttpBackend.writeAll 1000 { buffer := [], flushed := [] }
        (List.replicate 10 testPayload)).buffer = [] ∧
    (HttpBackend.writeAll 1000 { buffer := [], flushed := [] }
        (List.replicate 10 testPayload)).flushed.flatten
      = (List.replicate 10 testPayload).flatten := by
  have h := C17_write_buffer 1000 { buffer := [], flushed := [] } testPayload
    (List.replicate 10 testPayload)
  have hbuf : (HttpBackend.writeAll 1000 { buffer := [], flushed := [] }
      (List.replicate 10 testPayload)).buffer = [] := by decide!
  refine ⟨Prod.ext (h.2.2.1 (by decide!)) h.1, hbuf, ?_⟩
  have h4 := h.2.2.2
  rw [hbuf] at h4
  simpa using h4

/-- C18: when data holds the quote byte c at index start, then a body in which c occurs
only escaped and every backslash is immediately followed by c, then an unescaped closing c,
FindEndWithQuote returns no error, the index just after the closing c, and the token made of
c, the body without its escape backslashes, and c. -/
theorem C18_quoted_token (pre body rest : Str) (c : Nat) (hc : c = 34 ∨ c = 39)
    (hb : escBody c body = true) :
    FindEndWithQuote (pre ++ c :: (body ++ c :: rest)) pre.length c
      = .ok (pre.length + 1 + body.length + 1, c :: (unescape body ++ [c]), none) := by
  rcases hc with h | h <;> subst h <;> exact FindEndWithQuote_closed pre body rest _ hb

/-- C18 at a quoted token with one escaped quote inside. -/
theorem C18_quoted_token_witness :
    FindEndWithQuote (str "from \"a\\\"b\" x") 5 34 = .ok (11, str "\"a\"b\"", none) :=
  C18_quoted_token (str "from ") (str "a\\\"b") (str " x") 34 (Or.inl rfl) (by decide)

/-- C19: when the first byte after the leading spaces, at index s, is an opening round,
square or curly bracket, and the matching closer occurs later, ScanToken returns no error,
the token from s up to and including the first closer, and the index just after that closer
as advance; when the closer does not occur, ScanToken returns ErrUnclosed and no token. -/
theorem C19_bracket_group (sp mid rest tl : Str) (o cl : Nat) (atEOF : Bool)
    (hsp : ∀ x ∈ sp, x = 32)
    (hpair : (o = 40 ∧ cl = 41) ∨ (o = 91 ∧ cl = 93) ∨ (o = 123 ∧ cl = 125)) :
    (cl ∉ mid →
      ScanToken (sp ++ o :: (mid ++ cl :: rest)) atEOF
        = .ok (((sp.length + mid.length + 2 : Nat) : Int), some (o :: (mid ++ [cl])), none)) ∧
    (cl ∉ tl →
      ScanToken (sp ++ o :: tl) atEOF = .ok (-1, none, some Err.ErrUnclosed)) := by
  have ho : o ≠ 32 ∧ o ≠ cl := by omega
  constructor
  · intro hmid
    obtain ⟨h1, h2⟩ := dropSpaces_run sp o (mid ++ cl :: rest) hsp ho.1
    rw [ScanToken_eq_tokenAt _ atEOF o _ h2, h1, tokenAt_bracket _ o cl _ hpair,
      groupAt_closed _ o cl mid rest ho.2 hmid]
  · intro htl
    obtain ⟨h1, h2⟩ := dropSpaces_run sp o tl hsp ho.1
    rw [ScanToken_eq_tokenAt _ atEOF o _ h2, h1, tokenAt_bracket _ o cl _ hpair,
      groupAt_unclosed _ o cl tl ho.2 htl]

/-- C19 at a group with a nested opener, which ends at the first closer, and at a group
that is never closed. -/
theorem C19_bracket_group_witness :
    ScanToken (str "  (a (b) c) d") false = .ok (8, some (str "(a (b)"), none) ∧
    ScanToken (str " [abc") true = .ok (-1, none, some Err.ErrUnclosed) :=
  ⟨(C19_bracket_group (str "  ") (str "a (b") (str " c) d") [] 40 41 false (by decide)
      (Or.inl ⟨rfl, rfl⟩)).1 (by decide),
   (C19_bracket_group (str " ") [] [] (str "abc") 91 93 true (by decide)
      (Or.inr (Or.inl ⟨rfl, rfl⟩))).2 (by decide)⟩

/-- C20: at the least index whose token lower-cases to a keyword and is not the last token,
GetIdentifierFromTokens returns fn applied to the tokens after it and no error; when there
is no such index it returns the empty string and ErrIllegalQL. -/
theorem C20_identifier_after_keyword (E : Env) (keywords : List Str)
    (fn : List Str → Outcome Str) (tokens : List Str) :
    (∀ pre t post, tokens = pre ++ t :: post → post ≠ [] → ToLower E t ∈ keywords →
      (∀ u ∈ pre, ToLower E u ∉ keywords) →
      GetIdentifierFromTokens E tokens keywords fn = (fn post).bind fun m => .ok (m, none)) ∧
    ((∀ pre t post, tokens = pre ++ t :: post → post ≠ [] → ToLower E t ∉ keywords) →
      GetIdentifierFromTokens E tokens keywords fn = .ok ([], some Err.ErrIllegalQL)) := by
  constructor
  · intro pre t post htok hpost ht hpre
    unfold GetIdentifierFromTokens
    rw [htok, identLoop_skip_all E keywords fn pre _ hpre,
      identLoop_hit E keywords fn t post ht hpost]
  · intro h
    exact identLoop_none E keywords fn tokens h

/-- C20 at the tokens of a plain select and at the tokens left of a select with an
unterminated quote, which end at from. -/
theorem C20_identifier_after_keyword_witness :
    GetIdentifierFromTokens (asciiEnv []) [str "select", str "*", str "from", str "cpu"]
        [str "from", str "measurement"] getMeasurement = .ok (str "cpu", none) ∧
    ScanTokens (asciiEnv []) (str "select * from \"cpu") 0
        = .ok [str "select", str "*", str "from"] ∧
    GetIdentifierFromTokens (asciiEnv []) [str "select", str "*", str "from"]
        [str "from", str "measurement"] getMeasurement = .ok ([], some Err.ErrIllegalQL) :=
  ⟨(C20_identifier_after_keyword (asciiEnv []) [str "from", str "measurement"] getMeasurement
      [str "select", str "*", str "from", str "cpu"]).1
      [str "select", str "*"] (str "from") [str "cpu"] rfl (by decide) (by decide) (by decide),
   by decide!,
   (C20_identifier_after_keyword (asciiEnv []) [str "from", str "measurement"] getMeasurement
      [str "select", str "*", str "from"]).2 (by
        intro pre t post h hpost
        have hlen := congrArg List.length h
        simp only [List.length_cons, List.length_append, List.length_nil] at hlen
        have hp : 0 < post.length := List.length_pos.mpr hpost
        match pre, h with
        | [], h =>
          simp only [List.nil_append, List.cons.injEq] at h
          rw [← h.1]; decide
        | [_], h =>
          simp only [List.cons_append, List.nil_append, List.cons.injEq] at h
          rw [← h.2.1]; decide
        | _ :: _ :: more, _ =>
          simp only [List.length_cons] at hlen
          omega)⟩

end InfluxProxy

